import Mathlib

/-!
Shallow embedding of the win32 process memory scanner core
(`src/memory_scanner.hpp` declarations, `src/memory_scanner.cpp`, and the
templated implementations of `NextScan` / `MemoryObject::ReRead`).

Modelling conventions:
* `IntPtr` / `SIZE_T` values are modelled as `Nat` (addresses and lengths of
  real regions are far below `2^64`, and no arithmetic here wraps).
* A byte buffer (`std::unique_ptr<char[]>`) is a `List Nat` of its bytes.
* The scanned element type `T` is modelled by its width `W = sizeof(T)` in
  bytes; a slot value is the `W`-byte chunk of the buffer at the slot, and a
  filter function compares two such chunks.
* `ReadProcessMemory` / `VirtualQueryEx` are modelled by the `Process`
  structure: for each (address, length) the read primitive answers with a
  success flag, a `GetLastError` code, and the list of bytes it actually
  delivered; the query primitive answers with a region descriptor or a
  failure code.
* C++ exceptions become `Except ScanError`；the in-place mutation of
  `std::vector` (swap-to-front compaction followed by `resize`) is modelled
  literally as index-based recursion over a `List` with a fuel bound equal
  to the quantity the C++ loop counter is bounded by.
-/

namespace MemoryScanner

/-- Windows `ERROR_PARTIAL_COPY` (the tolerated signal in `ReadRegionData`
and `MemoryObject::ReRead`). -/
def ERROR_PARTIAL_COPY : Nat := 299

/-- Windows `ERROR_INVALID_PARAMETER` (the end-of-address-space sentinel in
`InitialScan`). -/
def ERROR_INVALID_PARAMETER : Nat := 87

/-- Windows `MEM_COMMIT` state flag. -/
def MEM_COMMIT : Nat := 0x1000

/-- Windows `PAGE_READWRITE` protection flag. -/
def PAGE_READWRITE : Nat := 0x04

/-- Windows `PAGE_EXECUTE_READWRITE` protection flag. -/
def PAGE_EXECUTE_READWRITE : Nat := 0x40

/-- `memory_scanner::MemoryRegion`: a continuous region in process memory.
`data` is the owned snapshot buffer (`bytes`), one `Nat` per byte. -/
structure MemoryRegion where
  base_address : Nat
  length : Nat
  data : List Nat
deriving Repr, DecidableEq

/-- `MemoryRegion::ContainsAddress`. -/
def MemoryRegion.ContainsAddress (r : MemoryRegion) (address : Nat) : Bool :=
  address ≥ r.base_address && address < r.base_address + r.length

/-- `memory_scanner::MemoryObject<T>`: an address together with the held
value, the latter modelled as its `W = sizeof(T)` bytes. -/
structure MemoryObject where
  address : Nat
  value : List Nat
deriving Repr, DecidableEq

/-- The error kinds carried by `memory_scanner::MemoryScannerException`,
distinguished by the throw sites in the source.  `OutOfFuel` is an artifact
of bounding the unbounded `InitialScan` cursor walk; no claim concerns it. -/
inductive ScanError where
  /-- thrown as "Cannot read process memory" with an error code and address -/
  | ReadFailure (ec : Nat) (address : Nat)
  /-- thrown as "Bytes read differs from region size" or
  "Bytes read differs from memory object size" -/
  | ShortRead
  /-- thrown as "Cannot VirtualQueryEx process" -/
  | QueryFailure (ec : Nat)
  /-- model artifact: fuel bound of the embedded `InitialScan` loop reached -/
  | OutOfFuel
deriving Repr, DecidableEq

/-- Outcome of one `ReadProcessMemory` call: the BOOL return value, the
`GetLastError` code observed on failure, and the bytes actually copied into
the destination (`delivered.length` is `*lpNumberOfBytesRead`, up to the
requested length — the model truncates over-delivery at the request size). -/
structure ReadResult where
  ok : Bool
  ec : Nat
  delivered : List Nat
deriving Repr, DecidableEq

/-- One `MEMORY_BASIC_INFORMATION` record as used by `InitialScan`. -/
structure RegionInfo where
  BaseAddress : Nat
  RegionSize : Nat
  State : Nat
  Protect : Nat
deriving Repr, DecidableEq

/-- Outcome of one `VirtualQueryEx` call. -/
inductive QueryResult where
  | info (mi : RegionInfo)
  | fail (ec : Nat)
deriving Repr, DecidableEq

/-- The target process (`HANDLE` plus the behaviour of the two win32
primitives against it): `readMem address length` models
`ReadProcessMemory`, `queryMem address` models `VirtualQueryEx`. -/
structure Process where
  readMem : Nat → Nat → ReadResult
  queryMem : Nat → QueryResult

/-- The `W`-byte chunk of a buffer at slot `i` (what
`reinterpret_cast<const T*>(buf)[i]` denotes). -/
def slotBytes (data : List Nat) (W i : Nat) : List Nat :=
  (data.drop (i * W)).take W

/-- The buffer produced inside `ReadRegionData`: a zero-initialised
`char[length]` (`std::make_unique` value-initialises) whose first
`bytes_read` bytes were overwritten by `ReadProcessMemory`. -/
def freshBuf (p : Process) (base len : Nat) : List Nat :=
  let d := ((p.readMem base len).delivered).take len
  d ++ List.replicate (len - d.length) 0

/-- `memory_scanner::ReadRegionData`: reallocates the region's buffer, reads
`length` bytes at `base_address` into it, throws only when
`ReadProcessMemory` fails with a code other than `ERROR_PARTIAL_COPY`, and
returns the populated region together with `bytes_read` (which every caller
is free to ignore). -/
def ReadRegionData (p : Process) (r : MemoryRegion) :
    Except ScanError (MemoryRegion × Nat) :=
  let res := p.readMem r.base_address r.length
  if res.ok = false ∧ res.ec ≠ ERROR_PARTIAL_COPY then
    Except.error (ScanError.ReadFailure res.ec r.base_address)
  else
    Except.ok ({ base_address := r.base_address, length := r.length,
                 data := freshBuf p r.base_address r.length },
               (res.delivered.take r.length).length)

/-- The cursor walk of `memory_scanner::InitialScan`; `fuel` bounds the
number of `VirtualQueryEx` calls (the C++ loop is bounded by the address
space running out, which the model cannot express structurally). -/
def InitialScanLoop (p : Process) :
    Nat → Nat → List MemoryRegion → Except ScanError (List MemoryRegion)
  | 0, _, _ => Except.error ScanError.OutOfFuel
  | fuel + 1, address, regions =>
    match p.queryMem address with
    | QueryResult.fail ec =>
      if ec = ERROR_INVALID_PARAMETER then Except.ok regions
      else Except.error (ScanError.QueryFailure ec)
    | QueryResult.info mi =>
      let address2 := address + mi.RegionSize
      if mi.State ≠ MEM_COMMIT then
        InitialScanLoop p fuel address2 regions
      else if mi.Protect ≠ PAGE_READWRITE ∧ mi.Protect ≠ PAGE_EXECUTE_READWRITE then
        InitialScanLoop p fuel address2 regions
      else
        match ReadRegionData p
            { base_address := mi.BaseAddress, length := mi.RegionSize, data := [] } with
        | Except.error e => Except.error e
        | Except.ok (region, bytes_read) =>
          if bytes_read ≠ mi.RegionSize then Except.error ScanError.ShortRead
          else InitialScanLoop p fuel address2 (regions ++ [region])

/-- `memory_scanner::InitialScan`, starting the cursor at address 0 with an
empty region list. -/
def InitialScan (p : Process) (fuel : Nat) : Except ScanError (List MemoryRegion) :=
  InitialScanLoop p fuel 0 []

/-- `std::swap(l[i], l[j])`; out-of-range indices leave the list unchanged
(the source only ever swaps in-range indices). -/
def listSwap (l : List α) (i j : Nat) : List α :=
  match l[i]?, l[j]? with
  | some x, some y => (l.set i y).set j x
  | _, _ => l

/-- A filter function `FilterFn<T>`: compares the previous and the current
slot value (each a `W`-byte chunk) and answers "keep". -/
def FilterFn : Type := List Nat → List Nat → Bool

/-- The loop body of the unrestricted `NextScan`, modelled literally:
`r` is the loop counter, `new_size` the compaction frontier, `regions` the
vector being mutated in place, `valid_addresses` the accumulating result.
`fuel` bounds the iteration count; the caller passes `regions.length`,
which the C++ `for` loop is bounded by (the vector's size never changes
inside the loop — `set`/swap preserve it). -/
def nextScanLoop (p : Process) (W : Nat) (keep_if : FilterFn) :
    Nat → Nat → Nat → List MemoryRegion → List Nat →
    Except ScanError (List MemoryRegion × Nat × List Nat)
  | 0, _, new_size, regions, valid_addresses =>
    Except.ok (regions, new_size, valid_addresses)
  | fuel + 1, r, new_size, regions, valid_addresses =>
    if r < regions.length then
      let reg := regions.getD r { base_address := 0, length := 0, data := [] }
      match ReadRegionData p
          { base_address := reg.base_address, length := reg.length, data := [] } with
      | Except.error e => Except.error e
      | Except.ok (new_region, _) =>
        let idxs := (List.range (reg.length / W)).filter fun i =>
          keep_if (slotBytes reg.data W i) (slotBytes new_region.data W i)
        let addrs := idxs.map fun i => new_region.base_address + i * W
        let valid2 := valid_addresses ++ addrs
        if idxs.isEmpty then
          nextScanLoop p W keep_if fuel (r + 1) new_size regions valid2
        else
          let regions1 := regions.set r new_region
          let regions2 := if new_size ≠ r then listSwap regions1 new_size r else regions1
          nextScanLoop p W keep_if fuel (r + 1) (new_size + 1) regions2 valid2
    else
      Except.ok (regions, new_size, valid_addresses)

/-- The unrestricted `memory_scanner::NextScan` overload: runs the loop from
`r = 0`, `new_size = 0`, then truncates (`regions.resize(new_size)`) and
returns the matched addresses together with the compacted session. -/
def NextScan (p : Process) (W : Nat) (keep_if : FilterFn)
    (regions : List MemoryRegion) :
    Except ScanError (List Nat × List MemoryRegion) :=
  match nextScanLoop p W keep_if regions.length 0 0 regions [] with
  | Except.error e => Except.error e
  | Except.ok (regions2, new_size, valid_addresses) =>
    Except.ok (valid_addresses, regions2.take new_size)

/-- The keep decision for one candidate address inside a region, exactly as
the restricted `NextScan` computes it: translate the absolute address to a
slot index against the old region's base, then compare old vs new slot. -/
def candKeep (W : Nat) (keep_if : FilterFn)
    (old_region new_region : MemoryRegion) (ad : Nat) : Bool :=
  let translated_index := (ad - old_region.base_address) / W
  keep_if (slotBytes old_region.data W translated_index)
          (slotBytes new_region.data W translated_index)

/-- The inner `do { ... } while` of the restricted `NextScan`: consumes the
contiguous run of candidate addresses contained in the current (old) region,
swap-compacting kept addresses forward.  Returns the updated
`(a, new_size_a, valid_addresses, found_at_least_one_valid_address)`.
`fuel` bounds the iterations; the caller passes `valid_addresses.length - a`
(the loop advances `a` every iteration and stops at the vector's end).
`old_region` stands for `regions[r]`, which the C++ loop re-reads each
iteration but never mutates until after the loop. -/
def innerScanLoop (W : Nat) (keep_if : FilterFn)
    (old_region new_region : MemoryRegion) :
    Nat → Nat → Nat → List Nat → Bool → Nat × Nat × List Nat × Bool
  | 0, a, new_size_a, valid_addresses, found =>
    (a, new_size_a, valid_addresses, found)
  | fuel + 1, a, new_size_a, valid_addresses, found =>
    let ad := valid_addresses.getD a 0
    let keepIt := candKeep W keep_if old_region new_region ad
    let valid2 :=
      if keepIt ∧ new_size_a ≠ a then listSwap valid_addresses new_size_a a
      else valid_addresses
    let new_size_a2 := if keepIt then new_size_a + 1 else new_size_a
    let found2 := found || keepIt
    let a2 := a + 1
    if a2 < valid2.length ∧ old_region.ContainsAddress (valid2.getD a2 0) = true then
      innerScanLoop W keep_if old_region new_region fuel a2 new_size_a2 valid2 found2
    else
      (a2, new_size_a2, valid2, found2)

/-- The outer `while` of the restricted `NextScan`, modelled literally with
both loop counters and both compaction frontiers.  `fuel` bounds the
iterations; the caller passes `regions.length` (the loop advances `r` every
iteration and stops at the region vector's end, whose size is constant
inside the loop). -/
def nextScanRLoop (p : Process) (W : Nat) (keep_if : FilterFn) :
    Nat → Nat → Nat → Nat → Nat → List MemoryRegion → List Nat →
    Except ScanError (List MemoryRegion × Nat × List Nat × Nat)
  | 0, _, _, new_size_r, new_size_a, regions, valid_addresses =>
    Except.ok (regions, new_size_r, valid_addresses, new_size_a)
  | fuel + 1, r, a, new_size_r, new_size_a, regions, valid_addresses =>
    if r < regions.length ∧ a < valid_addresses.length then
      let reg := regions.getD r { base_address := 0, length := 0, data := [] }
      if reg.ContainsAddress (valid_addresses.getD a 0) = false then
        nextScanRLoop p W keep_if fuel (r + 1) a new_size_r new_size_a
          regions valid_addresses
      else
        match ReadRegionData p
            { base_address := reg.base_address, length := reg.length, data := [] } with
        | Except.error e => Except.error e
        | Except.ok (new_region, _) =>
          match innerScanLoop W keep_if reg new_region
              (valid_addresses.length - a) a new_size_a valid_addresses false with
          | (a2, new_size_a2, valid2, found) =>
            if found then
              let regions1 := regions.set r new_region
              let regions2 :=
                if new_size_r ≠ r then listSwap regions1 new_size_r r else regions1
              nextScanRLoop p W keep_if fuel (r + 1) a2 (new_size_r + 1) new_size_a2
                regions2 valid2
            else
              nextScanRLoop p W keep_if fuel (r + 1) a2 new_size_r new_size_a2
                regions valid2
    else
      Except.ok (regions, new_size_r, valid_addresses, new_size_a)

/-- The restricted `memory_scanner::NextScan` overload: runs the merge loop
from all counters at 0, then truncates both vectors
(`regions.resize(new_size_r); valid_addresses.resize(new_size_a)`).
Returns the session and the candidate set after the in-place mutation. -/
def NextScanRestricted (p : Process) (W : Nat) (keep_if : FilterFn)
    (regions : List MemoryRegion) (valid_addresses : List Nat) :
    Except ScanError (List MemoryRegion × List Nat) :=
  match nextScanRLoop p W keep_if regions.length 0 0 0 0 regions valid_addresses with
  | Except.error e => Except.error e
  | Except.ok (regions2, new_size_r, valid2, new_size_a) =>
    Except.ok (regions2.take new_size_r, valid2.take new_size_a)

/-- `MemoryObject<T>::ReRead`: reads `sizeof(T)` bytes at `.address` into
`.value`.  A hard `ReadProcessMemory` failure (any code other than
`ERROR_PARTIAL_COPY`) throws "Cannot read process memory"; a byte-count
mismatch throws "Bytes read differs from memory object size"; otherwise
the freshly read bytes populate the value. -/
def MemoryObject.ReRead (p : Process) (W : Nat) (m : MemoryObject) :
    Except ScanError MemoryObject :=
  let res := p.readMem m.address W
  let d := res.delivered.take W
  if res.ok = false ∧ res.ec ≠ ERROR_PARTIAL_COPY then
    Except.error (ScanError.ReadFailure res.ec m.address)
  else if d.length ≠ W then
    Except.error ScanError.ShortRead
  else
    Except.ok { address := m.address, value := d ++ m.value.drop d.length }

/-- The slot indices of a region at which the filter keeps the slot, when
the region is freshly re-read from `p` (the inner `for` of the unrestricted
`NextScan`). -/
def regionMatchIdxs (p : Process) (W : Nat) (keep_if : FilterFn)
    (reg : MemoryRegion) : List Nat :=
  (List.range (reg.length / W)).filter fun i =>
    keep_if (slotBytes reg.data W i)
            (slotBytes (freshBuf p reg.base_address reg.length) W i)

/-- The absolute addresses the unrestricted `NextScan` records for one
region. -/
def regionMatchAddrs (p : Process) (W : Nat) (keep_if : FilterFn)
    (reg : MemoryRegion) : List Nat :=
  (regionMatchIdxs p W keep_if reg).map fun i => reg.base_address + i * W

/-- A region with its buffer replaced by a fresh read from `p` (what
`regions[r] = std::move(new_region)` stores for a kept region). -/
def refreshRegion (p : Process) (reg : MemoryRegion) : MemoryRegion :=
  { base_address := reg.base_address, length := reg.length,
    data := freshBuf p reg.base_address reg.length }

/-- Whether the unrestricted `NextScan` keeps a region
(`found_at_least_one_valid_address`). -/
def regionKeptB (p : Process) (W : Nat) (keep_if : FilterFn)
    (reg : MemoryRegion) : Bool :=
  !(regionMatchIdxs p W keep_if reg).isEmpty

/-- Structural recursion equivalent of the unrestricted `NextScan` loop
(proved equivalent below): processes the region list front to back,
collecting matched addresses and the kept, refreshed regions in order. -/
def nextScanFun (p : Process) (W : Nat) (keep_if : FilterFn) :
    List MemoryRegion → Except ScanError (List Nat × List MemoryRegion)
  | [] => Except.ok ([], [])
  | reg :: rest =>
    match ReadRegionData p
        { base_address := reg.base_address, length := reg.length, data := [] } with
    | Except.error e => Except.error e
    | Except.ok (new_region, _) =>
      let idxs := (List.range (reg.length / W)).filter fun i =>
        keep_if (slotBytes reg.data W i) (slotBytes new_region.data W i)
      let addrs := idxs.map fun i => new_region.base_address + i * W
      match nextScanFun p W keep_if rest with
      | Except.error e => Except.error e
      | Except.ok (as2, rs2) =>
        Except.ok (addrs ++ as2, if idxs.isEmpty then rs2 else new_region :: rs2)

/-- Structural recursion equivalent of the restricted `NextScan` merge loop
(proved equivalent below): either the leading region contains no leading
candidate and is dropped, or its contiguous run of contained candidates is
filtered against a fresh read and the region is kept iff some candidate
survived.  Trailing regions or candidates left over when the other sequence
is exhausted are dropped (both vectors are resized to their compaction
frontiers). -/
def nextScanRFun (p : Process) (W : Nat) (keep_if : FilterFn) :
    List MemoryRegion → List Nat → Except ScanError (List MemoryRegion × List Nat)
  | [], _ => Except.ok ([], [])
  | _ :: _, [] => Except.ok ([], [])
  | reg :: rest, a :: as =>
    if reg.ContainsAddress a = false then
      nextScanRFun p W keep_if rest (a :: as)
    else
      match ReadRegionData p
          { base_address := reg.base_address, length := reg.length, data := [] } with
      | Except.error e => Except.error e
      | Except.ok (new_region, _) =>
        let run := (a :: as).takeWhile fun ad => reg.ContainsAddress ad
        let rest_as := (a :: as).dropWhile fun ad => reg.ContainsAddress ad
        let keptRun := run.filter (candKeep W keep_if reg new_region)
        match nextScanRFun p W keep_if rest rest_as with
        | Except.error e => Except.error e
        | Except.ok (rs2, as2) =>
          Except.ok ((if keptRun.isEmpty then rs2 else new_region :: rs2),
                     keptRun ++ as2)

/-- ScanSession invariant: region base addresses strictly ascending and no
two regions' byte ranges overlapping. -/
def SessionInvariant (rs : List MemoryRegion) : Prop :=
  rs.Pairwise fun r1 r2 =>
    r1.base_address < r2.base_address ∧
    r1.base_address + r1.length ≤ r2.base_address

instance (rs : List MemoryRegion) : Decidable (SessionInvariant rs) := by
  unfold SessionInvariant; infer_instance

/-- The region enumeration of `p` yields regions in ascending address
order: querying at a cursor yields a nonempty region starting exactly at
the cursor (`VirtualQueryEx` semantics when the cursor is advanced from 0
by each returned `RegionSize`). -/
def EnumAscending (p : Process) : Prop :=
  ∀ a mi, p.queryMem a = QueryResult.info mi →
    mi.BaseAddress = a ∧ 0 < mi.RegionSize

/-! Concrete inputs used to exercise the theorems below on closed terms.
All widths are 4 bytes; a 32-bit value `v` is stored little-endian, so the
slot sequence `[5,7,5,9]` is the 16-byte buffer below. -/

/-- The 16-byte buffer holding the four 32-bit slots `[5,7,5,9]`. -/
def bytes5759 : List Nat := [5,0,0,0, 7,0,0,0, 5,0,0,0, 9,0,0,0]

/-- A 16-byte buffer holding the four 32-bit slots `[7,7,7,7]`. -/
def bytes7777 : List Nat := [7,0,0,0, 7,0,0,0, 7,0,0,0, 7,0,0,0]

/-- A process whose memory always reads back as the slots `[5,7,5,9]`. -/
def pSame : Process :=
  { readMem := fun _ _ => { ok := true, ec := 0, delivered := bytes5759 },
    queryMem := fun _ => QueryResult.fail 87 }

/-- A process whose memory always reads back as the slots `[7,7,7,7]`. -/
def pSeven : Process :=
  { readMem := fun _ _ => { ok := true, ec := 0, delivered := bytes7777 },
    queryMem := fun _ => QueryResult.fail 87 }

/-- A process whose reads always hard-fail with error code 5. -/
def pHardErr : Process :=
  { readMem := fun _ _ => { ok := false, ec := 5, delivered := [] },
    queryMem := fun _ => QueryResult.fail 87 }

/-- A process whose reads always signal `ERROR_PARTIAL_COPY` and deliver
nothing: the short-read situation of §9. -/
def pShort : Process :=
  { readMem := fun _ _ => { ok := false, ec := 299, delivered := [] },
    queryMem := fun _ => QueryResult.fail 87 }

/-- A process that enumerates exactly one committed read-write region of 16
bytes at address 0, and reads zeros everywhere. -/
def pEnum : Process :=
  { readMem := fun _ len => { ok := true, ec := 0, delivered := List.replicate len 0 },
    queryMem := fun a =>
      if a = 0 then
        QueryResult.info { BaseAddress := 0, RegionSize := 16,
                           State := MEM_COMMIT, Protect := PAGE_READWRITE }
      else QueryResult.fail 87 }

/-- The §8 scenario region: base `0x1000`, 16 bytes, slots `[5,7,5,9]`. -/
def regScenario : MemoryRegion :=
  { base_address := 0x1000, length := 16, data := bytes5759 }

/-- A second region above the first, 16 bytes at `0x2000`. -/
def regHigh : MemoryRegion :=
  { base_address := 0x2000, length := 16, data := bytes5759 }

/-- The §8 scenario filter: keep iff the current 32-bit value equals 5. -/
def keepEq5 : FilterFn := fun _ cur => decide (cur = [5,0,0,0])

/-- A filter that keeps everything. -/
def keepAll : FilterFn := fun _ _ => true

/-- A 4-byte memory object at `0x1000`. -/
def mObj : MemoryObject := { address := 0x1000, value := [1,2,3,4] }

/-! List helpers for the swap-to-front compaction loops. -/

theorem getElem?_append_len (L : List α) (x : α) (C : List α) :
    (L ++ x :: C)[L.length]? = some x := by
  rw [List.getElem?_append_right (Nat.le_refl _)]
  simp

theorem getD_append_len (L : List α) (x : α) (C : List α) (d : α) :
    (L ++ x :: C).getD L.length d = x := by
  rw [List.getD_eq_getElem?_getD, getElem?_append_len]
  rfl

theorem set_append_len (L : List α) (x : α) (C : List α) (v : α) :
    (L ++ x :: C).set L.length v = L ++ v :: C := by
  rw [List.set_append_right _ _ (Nat.le_refl _)]
  simp

/-- Swapping the element at the compaction frontier with the element at the
loop counter, when the frontier lags behind: the item `x` at the counter
moves to the frontier, the dropped item `j0` that was sitting there moves to
the counter's slot, and everything else stays put. -/
theorem listSwap_middle (K : List α) (j0 : α) (J : List α) (x : α) (C : List α) :
    listSwap (K ++ j0 :: (J ++ x :: C)) K.length (K.length + (J.length + 1)) =
    K ++ x :: (J ++ j0 :: C) := by
  have h1 : (K ++ j0 :: (J ++ x :: C))[K.length]? = some j0 :=
    getElem?_append_len K j0 _
  have e : K ++ j0 :: (J ++ x :: C) = (K ++ j0 :: J) ++ x :: C := by simp
  have el : (K ++ j0 :: J).length = K.length + (J.length + 1) := by
    simp [Nat.add_comm]
  have h2 : (K ++ j0 :: (J ++ x :: C))[K.length + (J.length + 1)]? = some x := by
    rw [e, ← el]
    exact getElem?_append_len _ x _
  unfold listSwap
  rw [h1, h2]
  show ((K ++ j0 :: (J ++ x :: C)).set K.length x).set
      (K.length + (J.length + 1)) j0 = K ++ x :: (J ++ j0 :: C)
  rw [set_append_len]
  have e2 : K ++ x :: (J ++ x :: C) = (K ++ x :: J) ++ x :: C := by simp
  have el2 : (K ++ x :: J).length = K.length + (J.length + 1) := by
    simp [Nat.add_comm]
  rw [e2, ← el2, set_append_len]
  simp

/-! Equivalence of the literal unrestricted `NextScan` loop with its
structural recursion.  Loop state invariant: the vector is
`K ++ (J ++ suffix)` where `K` are the kept (compacted, refreshed) regions,
`J` the dropped leftovers sitting between the compaction frontier and the
loop counter, and `suffix` the regions not visited yet. -/

theorem nextScanLoop_spec (p : Process) (W : Nat) (keep_if : FilterFn)
    (suffix : List MemoryRegion) :
    ∀ (fuel : Nat) (K J : List MemoryRegion) (va : List Nat) (r ns : Nat),
      suffix.length ≤ fuel → r = K.length + J.length → ns = K.length →
      (∀ e, nextScanFun p W keep_if suffix = Except.error e →
        nextScanLoop p W keep_if fuel r ns (K ++ (J ++ suffix)) va =
          Except.error e) ∧
      (∀ as2 rs2, nextScanFun p W keep_if suffix = Except.ok (as2, rs2) →
        ∃ J2 : List MemoryRegion,
          nextScanLoop p W keep_if fuel r ns (K ++ (J ++ suffix)) va =
          Except.ok (K ++ (rs2 ++ J2), ns + rs2.length, va ++ as2)) := by
  induction suffix with
  | nil =>
    intro fuel K J va r ns _ hr hns
    constructor
    · intro e he
      simp [nextScanFun] at he
    · intro as2 rs2 h
      simp only [nextScanFun, Except.ok.injEq, Prod.mk.injEq] at h
      obtain ⟨h1, h2⟩ := h
      refine ⟨J, ?_⟩
      subst hr hns
      cases fuel with
      | zero => simp [nextScanLoop, ← h1, ← h2]
      | succ f => simp [nextScanLoop, ← h1, ← h2, Nat.lt_irrefl]
  | cons reg rest IH =>
    intro fuel K J va r ns hf hr hns
    cases fuel with
    | zero => exact absurd hf (by simp)
    | succ f =>
      have hf' : rest.length ≤ f := by
        simpa using hf
      subst hr hns
      have hguard : K.length + J.length < (K ++ (J ++ reg :: rest)).length := by
        simp
      have hget : (K ++ (J ++ reg :: rest)).getD (K.length + J.length)
          { base_address := 0, length := 0, data := [] } = reg := by
        rw [← List.append_assoc, ← List.length_append]
        exact getD_append_len _ reg _ _
      rcases hRd : ReadRegionData p
          { base_address := reg.base_address, length := reg.length, data := [] }
        with e0 | ⟨nr, k⟩
      · have hloop : nextScanLoop p W keep_if (f + 1) (K.length + J.length) K.length
            (K ++ (J ++ reg :: rest)) va = Except.error e0 := by
          simp only [nextScanLoop, hget, hguard, if_true, hRd]
        constructor
        · intro e he
          simp only [nextScanFun, hRd, Except.error.injEq] at he
          rw [hloop, he]
        · intro as2 rs2 h
          simp only [nextScanFun, hRd] at h
          exact absurd h (by simp)
      · by_cases hIdx : ((List.range (reg.length / W)).filter fun i =>
            keep_if (slotBytes reg.data W i) (slotBytes nr.data W i)).isEmpty = true
        · -- region dropped: counter advances, frontier stays, vector untouched
          have hloop : nextScanLoop p W keep_if (f + 1) (K.length + J.length) K.length
              (K ++ (J ++ reg :: rest)) va =
              nextScanLoop p W keep_if f (K.length + J.length + 1) K.length
                (K ++ (J ++ reg :: rest))
                (va ++ ((List.range (reg.length / W)).filter fun i =>
                  keep_if (slotBytes reg.data W i) (slotBytes nr.data W i)).map
                    fun i => nr.base_address + i * W) := by
            simp only [nextScanLoop, hget, hguard, if_true, hRd, hIdx]
          have hre : K ++ (J ++ reg :: rest) = K ++ ((J ++ [reg]) ++ rest) := by
            simp
          have IH2 := IH f K (J ++ [reg])
            (va ++ ((List.range (reg.length / W)).filter fun i =>
              keep_if (slotBytes reg.data W i) (slotBytes nr.data W i)).map
                fun i => nr.base_address + i * W)
            (K.length + J.length + 1) K.length hf' (by simp; omega) rfl
          constructor
          · intro e he
            simp only [nextScanFun, hRd] at he
            rcases hFr : nextScanFun p W keep_if rest with ef | ⟨as2', rs2'⟩ <;>
              rw [hFr] at he
            · rw [hloop, hre]
              exact IH2.1 e (hFr.trans he)
            · simp only [hIdx] at he
              exact absurd he (by simp)
          · intro as2 rs2 h
            simp only [nextScanFun, hRd] at h
            rcases hFr : nextScanFun p W keep_if rest with ef | ⟨as2', rs2'⟩ <;>
              rw [hFr] at h
            · exact absurd h (by simp)
            · simp only [hIdx, if_true, Except.ok.injEq, Prod.mk.injEq] at h
              obtain ⟨h1, h2⟩ := h
              obtain ⟨J2, hJ2⟩ := IH2.2 as2' rs2' hFr
              refine ⟨J2, ?_⟩
              rw [hloop, hre, hJ2, ← h1, ← h2]
              simp
        · -- region kept: swap to the frontier, advance both counters
          have hIdxF : ((List.range (reg.length / W)).filter fun i =>
              keep_if (slotBytes reg.data W i) (slotBytes nr.data W i)).isEmpty
                = false := by
            simpa using hIdx
          cases J with
          | nil =>
            have hloop : nextScanLoop p W keep_if (f + 1)
                (K.length + ([] : List MemoryRegion).length) K.length
                (K ++ (([] : List MemoryRegion) ++ reg :: rest)) va =
                nextScanLoop p W keep_if f
                  (K.length + ([] : List MemoryRegion).length + 1) (K.length + 1)
                  (K ++ (([] : List MemoryRegion) ++ nr :: rest))
                  (va ++ ((List.range (reg.length / W)).filter fun i =>
                    keep_if (slotBytes reg.data W i) (slotBytes nr.data W i)).map
                      fun i => nr.base_address + i * W) := by
              have hcond : ¬(K.length ≠ K.length + ([] : List MemoryRegion).length) := by
                simp
              have hset : (K ++ (([] : List MemoryRegion) ++ reg :: rest)).set
                  (K.length + ([] : List MemoryRegion).length) nr =
                  K ++ (([] : List MemoryRegion) ++ nr :: rest) := by
                simp [set_append_len K reg rest nr]
              simp only [nextScanLoop, hget, hguard, if_true, hRd, hIdxF,
                Bool.false_eq_true, if_false, hcond, hset]
            have hre : K ++ (([] : List MemoryRegion) ++ nr :: rest) =
                (K ++ [nr]) ++ (([] : List MemoryRegion) ++ rest) := by
              simp
            have IH2 := IH f (K ++ [nr]) []
              (va ++ ((List.range (reg.length / W)).filter fun i =>
                keep_if (slotBytes reg.data W i) (slotBytes nr.data W i)).map
                  fun i => nr.base_address + i * W)
              (K.length + ([] : List MemoryRegion).length + 1) (K.length + 1) hf'
              (by simp) (by simp)
            constructor
            · intro e he
              simp only [nextScanFun, hRd] at he
              rcases hFr : nextScanFun p W keep_if rest with ef | ⟨as2', rs2'⟩ <;>
                rw [hFr] at he
              · rw [hloop, hre]
                exact IH2.1 e (hFr.trans he)
              · simp only [hIdxF] at he
                exact absurd he (by simp)
            · intro as2 rs2 h
              simp only [nextScanFun, hRd] at h
              rcases hFr : nextScanFun p W keep_if rest with ef | ⟨as2', rs2'⟩ <;>
                rw [hFr] at h
              · exact absurd h (by simp)
              · simp only [hIdxF, Bool.false_eq_true, if_false,
                  Except.ok.injEq, Prod.mk.injEq] at h
                obtain ⟨h1, h2⟩ := h
                obtain ⟨J2, hJ2⟩ := IH2.2 as2' rs2' hFr
                refine ⟨J2, ?_⟩
                rw [hloop, hre, hJ2, ← h1, ← h2]
                simp [Nat.add_assoc, Nat.add_comm 1 rs2'.length]
          | cons j0 J' =>
            have hne : K.length ≠ K.length + (j0 :: J').length := by
              simp
            have hset : (K ++ ((j0 :: J') ++ reg :: rest)).set
                (K.length + (j0 :: J').length) nr =
                K ++ (j0 :: (J' ++ nr :: rest)) := by
              have e1 : K ++ ((j0 :: J') ++ reg :: rest) =
                  (K ++ j0 :: J') ++ reg :: rest := by simp
              have el1 : K.length + (j0 :: J').length = (K ++ j0 :: J').length := by
                simp
              rw [e1, el1, set_append_len]
              simp
            have hswap : listSwap (K ++ (j0 :: (J' ++ nr :: rest)))
                K.length (K.length + (j0 :: J').length) =
                K ++ (nr :: (J' ++ j0 :: rest)) := by
              have el2 : K.length + (j0 :: J').length =
                  K.length + (J'.length + 1) := by simp
              rw [el2]
              exact listSwap_middle K j0 J' nr rest
            have hloop : nextScanLoop p W keep_if (f + 1)
                (K.length + (j0 :: J').length) K.length
                (K ++ ((j0 :: J') ++ reg :: rest)) va =
                nextScanLoop p W keep_if f (K.length + (j0 :: J').length + 1)
                  (K.length + 1) (K ++ (nr :: (J' ++ j0 :: rest)))
                  (va ++ ((List.range (reg.length / W)).filter fun i =>
                    keep_if (slotBytes reg.data W i) (slotBytes nr.data W i)).map
                      fun i => nr.base_address + i * W) := by
              simp only [nextScanLoop, hget, hguard, if_true, hRd, hIdxF,
                Bool.false_eq_true, if_false]
              rw [if_pos hne, hset, hswap]
            have hre : K ++ (nr :: (J' ++ j0 :: rest)) =
                (K ++ [nr]) ++ ((J' ++ [j0]) ++ rest) := by
              simp
            have IH2 := IH f (K ++ [nr]) (J' ++ [j0])
              (va ++ ((List.range (reg.length / W)).filter fun i =>
                keep_if (slotBytes reg.data W i) (slotBytes nr.data W i)).map
                  fun i => nr.base_address + i * W)
              (K.length + (j0 :: J').length + 1) (K.length + 1) hf'
              (by simp; omega) (by simp)
            constructor
            · intro e he
              simp only [nextScanFun, hRd] at he
              rcases hFr : nextScanFun p W keep_if rest with ef | ⟨as2', rs2'⟩ <;>
                rw [hFr] at he
              · rw [hloop, hre]
                exact IH2.1 e (hFr.trans he)
              · simp only [hIdxF] at he
                exact absurd he (by simp)
            · intro as2 rs2 h
              simp only [nextScanFun, hRd] at h
              rcases hFr : nextScanFun p W keep_if rest with ef | ⟨as2', rs2'⟩ <;>
                rw [hFr] at h
              · exact absurd h (by simp)
              · simp only [hIdxF, Bool.false_eq_true, if_false,
                  Except.ok.injEq, Prod.mk.injEq] at h
                obtain ⟨h1, h2⟩ := h
                obtain ⟨J2, hJ2⟩ := IH2.2 as2' rs2' hFr
                refine ⟨J2, ?_⟩
                rw [hloop, hre, hJ2, ← h1, ← h2]
                simp [Nat.add_assoc, Nat.add_comm 1 rs2'.length]

/-- The unrestricted `NextScan` overload computes exactly its structural
recursion: the swap-to-front compaction plus final `resize` leaves the kept,
refreshed regions in their original relative order and the matched
addresses in visit order. -/
theorem NextScan_eq_fun (p : Process) (W : Nat) (keep_if : FilterFn)
    (regions : List MemoryRegion) :
    NextScan p W keep_if regions = nextScanFun p W keep_if regions := by
  have h := nextScanLoop_spec p W keep_if regions regions.length [] [] []
    0 0 (Nat.le_refl _) rfl rfl
  unfold NextScan
  rcases hF : nextScanFun p W keep_if regions with e | ⟨as2, rs2⟩
  · have he := h.1 e hF
    simp only [List.nil_append] at he
    rw [he]
  · obtain ⟨J2, hJ2⟩ := h.2 as2 rs2 hF
    simp only [List.nil_append] at hJ2
    rw [hJ2]
    have : (rs2 ++ J2).take rs2.length = rs2 := List.take_left rs2 J2
    simp [this]

theorem ReadRegionData_ok_eq (p : Process) (reg : MemoryRegion)
    (nr : MemoryRegion) (k : Nat)
    (h : ReadRegionData p
      { base_address := reg.base_address, length := reg.length, data := [] } =
      Except.ok (nr, k)) :
    nr = refreshRegion p reg := by
  unfold ReadRegionData at h
  dsimp only at h
  split at h
  · exact absurd h (by simp)
  · simp only [Except.ok.injEq, Prod.mk.injEq] at h
    exact h.1.symm

theorem ReadRegionData_error_eq (p : Process) (b l : Nat) (d : List Nat)
    (e : ScanError)
    (h : ReadRegionData p { base_address := b, length := l, data := d } =
      Except.error e) :
    e = ScanError.ReadFailure (p.readMem b l).ec b := by
  unfold ReadRegionData at h
  dsimp only at h
  split at h
  · simp only [Except.error.injEq] at h
    exact h.symm
  · exact absurd h (by simp)

theorem idxs_eq_regionMatchIdxs (p : Process) (W : Nat) (keep_if : FilterFn)
    (reg : MemoryRegion) :
    ((List.range (reg.length / W)).filter fun i =>
      keep_if (slotBytes reg.data W i)
              (slotBytes (refreshRegion p reg).data W i)) =
    regionMatchIdxs p W keep_if reg := rfl

/-- What a successful unrestricted refinement computes: the returned address
list is the per-region match lists concatenated in region order, and the
surviving session is the kept regions, refreshed, in their original order. -/
theorem nextScanFun_char (p : Process) (W : Nat) (keep_if : FilterFn) :
    ∀ (regions : List MemoryRegion) (as : List Nat) (rs : List MemoryRegion),
      nextScanFun p W keep_if regions = Except.ok (as, rs) →
      as = (regions.map (regionMatchAddrs p W keep_if)).flatten ∧
      rs = (regions.filter (regionKeptB p W keep_if)).map (refreshRegion p) := by
  intro regions
  induction regions with
  | nil =>
    intro as rs h
    simp only [nextScanFun, Except.ok.injEq, Prod.mk.injEq] at h
    simp [← h.1, ← h.2]
  | cons reg rest IH =>
    intro as rs h
    simp only [nextScanFun] at h
    rcases hRd : ReadRegionData p
        { base_address := reg.base_address, length := reg.length, data := [] }
      with e | ⟨nr, k⟩ <;> rw [hRd] at h
    · exact absurd h (by simp)
    · rcases hF : nextScanFun p W keep_if rest with e | ⟨as2, rs2⟩ <;>
        rw [hF] at h
      · exact absurd h (by simp)
      · simp only [Except.ok.injEq, Prod.mk.injEq] at h
        obtain ⟨h1, h2⟩ := h
        have hnr := ReadRegionData_ok_eq p reg nr k hRd
        subst hnr
        obtain ⟨ih1, ih2⟩ := IH as2 rs2 hF
        constructor
        · rw [← h1, ih1]
          show regionMatchAddrs p W keep_if reg ++
            (List.map (regionMatchAddrs p W keep_if) rest).flatten =
            (List.map (regionMatchAddrs p W keep_if) (reg :: rest)).flatten
          simp
        · rw [← h2, ih2, List.filter_cons]
          rw [idxs_eq_regionMatchIdxs]
          by_cases hk : (regionMatchIdxs p W keep_if reg).isEmpty = true
          · simp [hk, regionKeptB]
          · simp only [Bool.not_eq_true] at hk
            simp [hk, regionKeptB]

/-- Refreshing a region's buffer changes neither its base address nor its
length, so any session ordering invariant transfers. -/
theorem SessionInvariant_refresh_filter (p : Process) (W : Nat)
    (keep_if : FilterFn) (regions : List MemoryRegion)
    (h : SessionInvariant regions) :
    SessionInvariant
      ((regions.filter (regionKeptB p W keep_if)).map (refreshRegion p)) := by
  unfold SessionInvariant at *
  have hs : (regions.filter (regionKeptB p W keep_if)).Sublist regions :=
    List.filter_sublist regions
  have h2 := h.sublist hs
  rw [List.pairwise_map]
  exact h2.imp (fun hab => by simpa [refreshRegion] using hab)

/-! Equivalence of the restricted `NextScan` merge loop with its structural
recursion.  The inner do-while consumes the maximal contained run of
candidates; its state invariant mirrors the region loop: the candidate
vector is `KA ++ (JA ++ (run ++ restAs))` with `KA` the kept compacted
candidates, `JA` dropped leftovers, `run` the contained candidates still to
visit, `restAs` everything past the current region. -/

theorem innerScanLoop_spec (W : Nat) (keep_if : FilterFn)
    (reg nr : MemoryRegion) (restAs : List Nat)
    (hrest : ∀ ad, restAs.head? = some ad → reg.ContainsAddress ad = false) :
    ∀ (run : List Nat) (KA JA : List Nat) (f0 : Bool) (fuel a ns : Nat),
      run ≠ [] →
      run.length ≤ fuel →
      (∀ ad ∈ run, reg.ContainsAddress ad = true) →
      a = KA.length + JA.length → ns = KA.length →
      ∃ JA2 : List Nat,
        JA2.length + (run.filter (candKeep W keep_if reg nr)).length
          = JA.length + run.length ∧
        innerScanLoop W keep_if reg nr fuel a ns
          (KA ++ (JA ++ (run ++ restAs))) f0 =
        (a + run.length,
         KA.length + (run.filter (candKeep W keep_if reg nr)).length,
         KA ++ ((run.filter (candKeep W keep_if reg nr)) ++ (JA2 ++ restAs)),
         f0 || !(run.filter (candKeep W keep_if reg nr)).isEmpty) := by
  intro run
  induction run with
  | nil =>
    intro KA JA f0 fuel a ns hne
    exact absurd rfl hne
  | cons ad run' IH =>
    intro KA JA f0 fuel a ns _ hfuel hrun ha hns
    subst ha hns
    cases fuel with
    | zero => exact absurd hfuel (by simp)
    | succ f =>
      have hfuel' : run'.length ≤ f := by simpa using hfuel
      have hcontad : reg.ContainsAddress ad = true := hrun ad (by simp)
      have hrun' : ∀ x ∈ run', reg.ContainsAddress x = true := fun x hx =>
        hrun x (by simp [hx])
      have hgetD : (KA ++ (JA ++ (ad :: run' ++ restAs))).getD
          (KA.length + JA.length) 0 = ad := by
        rw [← List.append_assoc, ← List.length_append]
        exact getD_append_len _ ad _ _
      rcases hKeep : candKeep W keep_if reg nr ad with _ | _
      · -- candidate dropped: no swap, frontier stays
        have hloop : innerScanLoop W keep_if reg nr (f + 1)
            (KA.length + JA.length) KA.length
            (KA ++ (JA ++ (ad :: run' ++ restAs))) f0 =
            (if KA.length + JA.length + 1 <
                (KA ++ (JA ++ (ad :: run' ++ restAs))).length ∧
                reg.ContainsAddress ((KA ++ (JA ++ (ad :: run' ++ restAs))).getD
                  (KA.length + JA.length + 1) 0) = true then
              innerScanLoop W keep_if reg nr f (KA.length + JA.length + 1)
                KA.length (KA ++ (JA ++ (ad :: run' ++ restAs))) f0
            else
              (KA.length + JA.length + 1, KA.length,
               KA ++ (JA ++ (ad :: run' ++ restAs)), f0)) := by
          simp only [innerScanLoop, hgetD, hKeep, Bool.false_eq_true, false_and,
            if_false, ite_false, Bool.or_false]
        have hshape : KA ++ (JA ++ (ad :: run' ++ restAs)) =
            KA ++ ((JA ++ [ad]) ++ (run' ++ restAs)) := by simp
        cases run' with
        | nil =>
          have hng : ¬(KA.length + JA.length + 1 <
              (KA ++ (JA ++ ([ad] ++ restAs))).length ∧
              reg.ContainsAddress ((KA ++ (JA ++ ([ad] ++ restAs))).getD
                (KA.length + JA.length + 1) 0) = true) := by
            cases restAs with
            | nil =>
              intro hc
              have h1 := hc.1
              simp only [List.length_append, List.length_cons, List.length_nil] at h1
              omega
            | cons r0 rr =>
              intro hc
              have h2 := hc.2
              have hg : (KA ++ (JA ++ ([ad] ++ r0 :: rr))).getD
                  (KA.length + JA.length + 1) 0 = r0 := by
                have e : KA ++ (JA ++ ([ad] ++ r0 :: rr)) =
                    (KA ++ (JA ++ [ad])) ++ r0 :: rr := by simp
                have el : KA.length + JA.length + 1 =
                    (KA ++ (JA ++ [ad])).length := by
                  simp only [List.length_append, List.length_cons, List.length_nil]
                  omega
                rw [e, el]
                exact getD_append_len _ r0 _ _
              rw [hg, hrest r0 rfl] at h2
              exact absurd h2 (by simp)
          refine ⟨JA ++ [ad], ?_, ?_⟩
          · simp [List.filter_cons, hKeep]
          · rw [hloop, if_neg hng]
            simp [List.filter_cons, hKeep]
        | cons r1 run'' =>
          have hg1 : (KA ++ ((JA ++ [ad]) ++ ((r1 :: run'') ++ restAs))).getD
              (KA.length + JA.length + 1) 0 = r1 := by
            have e : KA ++ ((JA ++ [ad]) ++ ((r1 :: run'') ++ restAs)) =
                (KA ++ (JA ++ [ad])) ++ (r1 :: (run'' ++ restAs)) := by simp
            have el : KA.length + JA.length + 1 = (KA ++ (JA ++ [ad])).length := by
              simp only [List.length_append, List.length_cons, List.length_nil]
              omega
            rw [e, el]
            exact getD_append_len _ r1 _ _
          have hguard : KA.length + JA.length + 1 <
              (KA ++ (JA ++ (ad :: (r1 :: run'') ++ restAs))).length ∧
              reg.ContainsAddress ((KA ++ (JA ++ (ad :: (r1 :: run'') ++ restAs))).getD
                (KA.length + JA.length + 1) 0) = true := by
            constructor
            · simp only [List.length_append, List.length_cons]
              omega
            · rw [hshape, hg1]
              exact hrun r1 (by simp)
          obtain ⟨JA2, hlen, hIH⟩ := IH KA (JA ++ [ad]) f0 f
            (KA.length + JA.length + 1) KA.length (by simp) hfuel' hrun'
            (by simp only [List.length_append, List.length_cons, List.length_nil]; omega) rfl
          have hfc : List.filter (candKeep W keep_if reg nr) (ad :: r1 :: run'') =
              List.filter (candKeep W keep_if reg nr) (r1 :: run'') := by
            rw [List.filter_cons, hKeep]
            simp
          refine ⟨JA2, ?_, ?_⟩
          · rw [hfc]
            simp only [List.length_append, List.length_cons, List.length_nil]
              at hlen ⊢
            omega
          · rw [hloop, if_pos hguard, hshape, hIH, hfc]
            have hA : KA.length + JA.length + 1 + (r1 :: run'').length =
                KA.length + JA.length + (ad :: r1 :: run'').length := by
              simp only [List.length_cons]
              omega
            rw [hA]
      · -- candidate kept: swap into the frontier if it lags, advance both
        cases JA with
        | nil =>
          have hcond : ¬(KA.length ≠ KA.length + ([] : List Nat).length) := by
            simp
          have hshape2 : KA ++ (([] : List Nat) ++ (ad :: run' ++ restAs)) =
              (KA ++ [ad]) ++ (([] : List Nat) ++ (run' ++ restAs)) := by simp
          cases run' with
          | nil =>
            have hng : ¬(KA.length + ([] : List Nat).length + 1 <
                (KA ++ (([] : List Nat) ++ ([ad] ++ restAs))).length ∧
                reg.ContainsAddress ((KA ++ (([] : List Nat) ++ ([ad] ++ restAs))).getD
                  (KA.length + ([] : List Nat).length + 1) 0) = true) := by
              cases restAs with
              | nil =>
                intro hc
                have h1 := hc.1
                simp only [List.length_append, List.length_cons, List.length_nil] at h1
                omega
              | cons r0 rr =>
                intro hc
                have h2 := hc.2
                have hg : (KA ++ (([] : List Nat) ++ ([ad] ++ r0 :: rr))).getD
                    (KA.length + ([] : List Nat).length + 1) 0 = r0 := by
                  have e : KA ++ (([] : List Nat) ++ ([ad] ++ r0 :: rr)) =
                      (KA ++ [ad]) ++ r0 :: rr := by simp
                  have el : KA.length + ([] : List Nat).length + 1 =
                      (KA ++ [ad]).length := by
                    simp only [List.length_append, List.length_cons, List.length_nil]
                    try omega
                  rw [e, el]
                  exact getD_append_len _ r0 _ _
                rw [hg, hrest r0 rfl] at h2
                exact absurd h2 (by simp)
            refine ⟨[], ?_, ?_⟩
            · simp [List.filter_cons, hKeep]
            · simp only [innerScanLoop, hgetD, hKeep, hcond, eq_self_iff_true,
                true_and, if_false, ite_false, if_true, ite_true]
              rw [if_neg hng]
              simp [List.filter_cons, hKeep]
          | cons r1 run'' =>
            have hg1 : ((KA ++ [ad]) ++ (([] : List Nat) ++ ((r1 :: run'') ++ restAs))).getD
                (KA.length + ([] : List Nat).length + 1) 0 = r1 := by
              have e : (KA ++ [ad]) ++ (([] : List Nat) ++ ((r1 :: run'') ++ restAs)) =
                  (KA ++ [ad]) ++ (r1 :: (run'' ++ restAs)) := by simp
              have el : KA.length + ([] : List Nat).length + 1 =
                  (KA ++ [ad]).length := by
                simp only [List.length_append, List.length_cons, List.length_nil]
                try omega
              rw [e, el]
              exact getD_append_len _ r1 _ _
            have hguard : KA.length + ([] : List Nat).length + 1 <
                (KA ++ (([] : List Nat) ++ (ad :: (r1 :: run'') ++ restAs))).length ∧
                reg.ContainsAddress
                  ((KA ++ (([] : List Nat) ++ (ad :: (r1 :: run'') ++ restAs))).getD
                    (KA.length + ([] : List Nat).length + 1) 0) = true := by
              constructor
              · simp only [List.length_append, List.length_cons, List.length_nil]
                omega
              · rw [hshape2, hg1]
                exact hrun r1 (by simp)
            obtain ⟨JA2, hlen, hIH⟩ := IH (KA ++ [ad]) ([] : List Nat) (f0 || true)
              f (KA.length + ([] : List Nat).length + 1) (KA.length + 1) (by simp)
              hfuel' hrun'
              (by simp only [List.length_append, List.length_cons, List.length_nil]; try omega)
              (by simp)
            have hfc : List.filter (candKeep W keep_if reg nr) (ad :: r1 :: run'') =
                ad :: List.filter (candKeep W keep_if reg nr) (r1 :: run'') := by
              rw [List.filter_cons, hKeep]
              simp
            refine ⟨JA2, ?_, ?_⟩
            · rw [hfc]
              simp only [List.length_append, List.length_cons, List.length_nil]
                at hlen ⊢
              omega
            · simp only [innerScanLoop, hgetD, hKeep, hcond, eq_self_iff_true,
                true_and, if_false, ite_false, if_true, ite_true]
              rw [if_pos hguard, hshape2, hIH, hfc]
              simp only [Prod.mk.injEq]
              refine ⟨?_, ?_, ?_, ?_⟩
              · simp only [List.length_append, List.length_cons, List.length_nil]
                omega
              · simp only [List.length_append, List.length_cons, List.length_nil]
                omega
              · simp
              · simp
        | cons j0 JA' =>
          have hne : KA.length ≠ KA.length + (j0 :: JA').length := by
            simp
          have hsw : listSwap (KA ++ ((j0 :: JA') ++ (ad :: run' ++ restAs)))
              KA.length (KA.length + (j0 :: JA').length) =
              KA ++ (ad :: (JA' ++ (j0 :: (run' ++ restAs)))) :=
            listSwap_middle KA j0 JA' ad (run' ++ restAs)
          have hshape3 : KA ++ (ad :: (JA' ++ (j0 :: (run' ++ restAs)))) =
              (KA ++ [ad]) ++ ((JA' ++ [j0]) ++ (run' ++ restAs)) := by simp
          cases run' with
          | nil =>
            have hng : ¬(KA.length + (j0 :: JA').length + 1 <
                (KA ++ (ad :: (JA' ++ (j0 :: (([] : List Nat) ++ restAs))))).length ∧
                reg.ContainsAddress
                  ((KA ++ (ad :: (JA' ++ (j0 :: (([] : List Nat) ++ restAs))))).getD
                    (KA.length + (j0 :: JA').length + 1) 0) = true) := by
              cases restAs with
              | nil =>
                intro hc
                have h1 := hc.1
                simp only [List.length_append, List.length_cons, List.length_nil] at h1
                omega
              | cons r0 rr =>
                intro hc
                have h2 := hc.2
                have hg : (KA ++ (ad :: (JA' ++ (j0 :: (([] : List Nat) ++ r0 :: rr))))).getD
                    (KA.length + (j0 :: JA').length + 1) 0 = r0 := by
                  have e : KA ++ (ad :: (JA' ++ (j0 :: (([] : List Nat) ++ r0 :: rr)))) =
                      ((KA ++ [ad]) ++ (JA' ++ [j0])) ++ r0 :: rr := by simp
                  have el : KA.length + (j0 :: JA').length + 1 =
                      ((KA ++ [ad]) ++ (JA' ++ [j0])).length := by
                    simp only [List.length_append, List.length_cons, List.length_nil]
                    omega
                  rw [e, el]
                  exact getD_append_len _ r0 _ _
                rw [hg, hrest r0 rfl] at h2
                exact absurd h2 (by simp)
            refine ⟨JA' ++ [j0], ?_, ?_⟩
            · simp [List.filter_cons, hKeep]
            · simp only [innerScanLoop, hgetD, hKeep, hne, eq_self_iff_true,
                true_and, if_false, ite_false, if_true, ite_true]
              rw [hsw, if_pos hne, if_neg hng]
              simp [List.filter_cons, hKeep]
          | cons r1 run'' =>
            have hg1 : ((KA ++ [ad]) ++ ((JA' ++ [j0]) ++ ((r1 :: run'') ++ restAs))).getD
                (KA.length + (j0 :: JA').length + 1) 0 = r1 := by
              have e : (KA ++ [ad]) ++ ((JA' ++ [j0]) ++ ((r1 :: run'') ++ restAs)) =
                  ((KA ++ [ad]) ++ (JA' ++ [j0])) ++ (r1 :: (run'' ++ restAs)) := by
                simp
              have el : KA.length + (j0 :: JA').length + 1 =
                  ((KA ++ [ad]) ++ (JA' ++ [j0])).length := by
                simp only [List.length_append, List.length_cons, List.length_nil]
                omega
              rw [e, el]
              exact getD_append_len _ r1 _ _
            have hguard : KA.length + (j0 :: JA').length + 1 <
                (KA ++ (ad :: (JA' ++ (j0 :: ((r1 :: run'') ++ restAs))))).length ∧
                reg.ContainsAddress
                  ((KA ++ (ad :: (JA' ++ (j0 :: ((r1 :: run'') ++ restAs))))).getD
                    (KA.length + (j0 :: JA').length + 1) 0) = true := by
              constructor
              · simp only [List.length_append, List.length_cons, List.length_nil]
                omega
              · rw [show KA ++ (ad :: (JA' ++ (j0 :: ((r1 :: run'') ++ restAs)))) =
                    (KA ++ [ad]) ++ ((JA' ++ [j0]) ++ ((r1 :: run'') ++ restAs)) from
                    by simp, hg1]
                exact hrun r1 (by simp)
            obtain ⟨JA2, hlen, hIH⟩ := IH (KA ++ [ad]) (JA' ++ [j0]) (f0 || true)
              f (KA.length + (j0 :: JA').length + 1) (KA.length + 1) (by simp)
              hfuel' hrun'
              (by simp only [List.length_append, List.length_cons, List.length_nil]; omega)
              (by simp)
            have hfc : List.filter (candKeep W keep_if reg nr) (ad :: r1 :: run'') =
                ad :: List.filter (candKeep W keep_if reg nr) (r1 :: run'') := by
              rw [List.filter_cons, hKeep]
              simp
            refine ⟨JA2, ?_, ?_⟩
            · rw [hfc]
              simp only [List.length_append, List.length_cons, List.length_nil]
                at hlen ⊢
              omega
            · simp only [innerScanLoop, hgetD, hKeep, hne, eq_self_iff_true,
                true_and, if_false, ite_false, if_true, ite_true]
              rw [hsw, if_pos hne, if_pos hguard, hshape3, hIH, hfc]
              simp only [Prod.mk.injEq]
              refine ⟨?_, ?_, ?_, ?_⟩
              · simp only [List.length_append, List.length_cons, List.length_nil]
                omega
              · simp only [List.length_append, List.length_cons, List.length_nil]
                omega
              · simp
              · simp

theorem dropWhile_head_not (P : Nat → Bool) (l : List Nat) (x : Nat)
    (h : (l.dropWhile P).head? = some x) : P x = false := by
  have h2 := List.head?_dropWhile_not P l
  rw [h] at h2
  simpa using h2

/-- Equivalence of the literal restricted `NextScan` merge loop with its
structural recursion, with the same kept/leftover/unvisited decomposition
for both the region vector and the candidate vector. -/
theorem nextScanRLoop_spec (p : Process) (W : Nat) (keep_if : FilterFn)
    (suffixR : List MemoryRegion) :
    ∀ (suffixA : List Nat) (fuel : Nat) (KR JR : List MemoryRegion)
      (KA JA : List Nat) (r a nsr nsa : Nat),
      suffixR.length ≤ fuel →
      r = KR.length + JR.length → nsr = KR.length →
      a = KA.length + JA.length → nsa = KA.length →
      (∀ e, nextScanRFun p W keep_if suffixR suffixA = Except.error e →
        nextScanRLoop p W keep_if fuel r a nsr nsa
          (KR ++ (JR ++ suffixR)) (KA ++ (JA ++ suffixA)) = Except.error e) ∧
      (∀ rs2 as2, nextScanRFun p W keep_if suffixR suffixA = Except.ok (rs2, as2) →
        ∃ (JR2 : List MemoryRegion) (JA2 : List Nat),
          nextScanRLoop p W keep_if fuel r a nsr nsa
            (KR ++ (JR ++ suffixR)) (KA ++ (JA ++ suffixA)) =
          Except.ok (KR ++ (rs2 ++ JR2), nsr + rs2.length,
                     KA ++ (as2 ++ JA2), nsa + as2.length)) := by
  induction suffixR with
  | nil =>
    intro suffixA fuel KR JR KA JA r a nsr nsa _ hr hnsr ha hnsa
    subst hr hnsr ha hnsa
    constructor
    · intro e he
      simp [nextScanRFun] at he
    · intro rs2 as2 h
      simp only [nextScanRFun, Except.ok.injEq, Prod.mk.injEq] at h
      obtain ⟨h1, h2⟩ := h
      refine ⟨JR, JA ++ suffixA, ?_⟩
      cases fuel with
      | zero => simp [nextScanRLoop, ← h1, ← h2]
      | succ f =>
        have hng : ¬(KR.length + JR.length <
            (KR ++ (JR ++ ([] : List MemoryRegion))).length ∧
            KA.length + JA.length < (KA ++ (JA ++ suffixA)).length) := by
          intro hc
          have h1 := hc.1
          simp only [List.length_append, List.length_nil] at h1
          omega
        simp [nextScanRLoop, hng, ← h1, ← h2]
  | cons reg restR IH =>
    intro suffixA fuel KR JR KA JA r a nsr nsa hf hr hnsr ha hnsa
    subst hr hnsr ha hnsa
    cases fuel with
    | zero => exact absurd hf (by simp)
    | succ f =>
      have hf' : restR.length ≤ f := by simpa using hf
      cases suffixA with
      | nil =>
        constructor
        · intro e he
          simp [nextScanRFun] at he
        · intro rs2 as2 h
          simp only [nextScanRFun, Except.ok.injEq, Prod.mk.injEq] at h
          obtain ⟨h1, h2⟩ := h
          refine ⟨JR ++ (reg :: restR), JA, ?_⟩
          have hng : ¬(KR.length + JR.length <
              (KR ++ (JR ++ (reg :: restR))).length ∧
              KA.length + JA.length < (KA ++ (JA ++ ([] : List Nat))).length) := by
            intro hc
            have h2c := hc.2
            simp only [List.length_append, List.length_nil] at h2c
            omega
          simp [nextScanRLoop, hng, ← h1, ← h2]
      | cons ad restA2 =>
        have hguard : KR.length + JR.length <
            (KR ++ (JR ++ (reg :: restR))).length ∧
            KA.length + JA.length < (KA ++ (JA ++ (ad :: restA2))).length := by
          constructor <;> (simp only [List.length_append, List.length_cons]; omega)
        have hgetR : (KR ++ (JR ++ (reg :: restR))).getD (KR.length + JR.length)
            { base_address := 0, length := 0, data := [] } = reg := by
          rw [← List.append_assoc, ← List.length_append]
          exact getD_append_len _ reg _ _
        have hgetA : (KA ++ (JA ++ (ad :: restA2))).getD
            (KA.length + JA.length) 0 = ad := by
          rw [← List.append_assoc, ← List.length_append]
          exact getD_append_len _ ad _ _
        by_cases hC : reg.ContainsAddress ad = false
        · -- leading candidate outside the region: the region is skipped
          have hloop : nextScanRLoop p W keep_if (f + 1) (KR.length + JR.length)
              (KA.length + JA.length) KR.length KA.length
              (KR ++ (JR ++ (reg :: restR))) (KA ++ (JA ++ (ad :: restA2))) =
              nextScanRLoop p W keep_if f (KR.length + JR.length + 1)
                (KA.length + JA.length) KR.length KA.length
                (KR ++ (JR ++ (reg :: restR))) (KA ++ (JA ++ (ad :: restA2))) := by
            simp only [nextScanRLoop, hguard, and_self, if_true, hgetR, hgetA,
              hC, eq_self_iff_true, ite_true]
          have hre : KR ++ (JR ++ (reg :: restR)) =
              KR ++ ((JR ++ [reg]) ++ restR) := by simp
          have IH2 := IH (ad :: restA2) f KR (JR ++ [reg]) KA JA
            (KR.length + JR.length + 1) (KA.length + JA.length)
            KR.length KA.length hf'
            (by simp only [List.length_append, List.length_cons, List.length_nil]; omega)
            rfl rfl rfl
          constructor
          · intro e he
            simp only [nextScanRFun, hC, eq_self_iff_true, if_true, ite_true] at he
            rw [hloop, hre]
            exact IH2.1 e he
          · intro rs2 as2 h
            simp only [nextScanRFun, hC, eq_self_iff_true, if_true, ite_true] at h
            obtain ⟨JR2, JA2, hJ⟩ := IH2.2 rs2 as2 h
            refine ⟨JR2, JA2, ?_⟩
            rw [hloop, hre, hJ]
        · -- the region contains the leading candidate
          have hCT : reg.ContainsAddress ad = true := by
            simpa using hC
          rcases hRd : ReadRegionData p
              { base_address := reg.base_address, length := reg.length, data := [] }
            with e0 | ⟨nr, k⟩
          · have hloop : nextScanRLoop p W keep_if (f + 1) (KR.length + JR.length)
                (KA.length + JA.length) KR.length KA.length
                (KR ++ (JR ++ (reg :: restR))) (KA ++ (JA ++ (ad :: restA2))) =
                Except.error e0 := by
              simp only [nextScanRLoop, hguard, and_self, if_true, ite_true,
                hgetR, hgetA, hCT, Bool.true_eq_false, if_false, ite_false, hRd]
            constructor
            · intro e he
              simp only [nextScanRFun, hCT, Bool.true_eq_false, if_false,
                ite_false, hRd, Except.error.injEq] at he
              rw [hloop, he]
            · intro rs2 as2 h
              simp only [nextScanRFun, hCT, Bool.true_eq_false, if_false,
                ite_false, hRd] at h
              exact absurd h (by simp)
          · -- the read succeeded: the inner loop consumes the contained run
            have hTD : ((ad :: restA2).takeWhile fun x => reg.ContainsAddress x) ++
                ((ad :: restA2).dropWhile fun x => reg.ContainsAddress x) =
                ad :: restA2 := List.takeWhile_append_dropWhile _ _
            have hrunne : ((ad :: restA2).takeWhile fun x => reg.ContainsAddress x)
                ≠ [] := by
              rw [List.takeWhile_cons_of_pos hCT]
              simp
            have hrunmem : ∀ x ∈ (ad :: restA2).takeWhile
                (fun y => reg.ContainsAddress y),
                reg.ContainsAddress x = true := fun x hx => List.mem_takeWhile_imp hx
            have hrest : ∀ x,
                ((ad :: restA2).dropWhile fun y => reg.ContainsAddress y).head? =
                  some x → reg.ContainsAddress x = false :=
              fun x hx => dropWhile_head_not _ _ x hx
            have hlensum : ((ad :: restA2).takeWhile
                  fun x => reg.ContainsAddress x).length +
                ((ad :: restA2).dropWhile fun x => reg.ContainsAddress x).length =
                restA2.length + 1 := by
              rw [← List.length_append, hTD]
              simp
            obtain ⟨JA2i, hleni, hinner⟩ := innerScanLoop_spec W keep_if reg nr
              ((ad :: restA2).dropWhile fun x => reg.ContainsAddress x) hrest
              ((ad :: restA2).takeWhile fun x => reg.ContainsAddress x) KA JA false
              ((KA ++ (JA ++ (ad :: restA2))).length - (KA.length + JA.length))
              (KA.length + JA.length) KA.length hrunne
              (by simp only [List.length_append, List.length_cons]; omega)
              hrunmem rfl rfl
            rw [hTD] at hinner
            by_cases hKR : ((ad :: restA2).takeWhile
                fun x => reg.ContainsAddress x).filter
                  (candKeep W keep_if reg nr) = []
            · -- no contained candidate survives: the region is dropped
              rw [hKR] at hinner hleni
              simp only [List.length_nil, Nat.add_zero, List.nil_append,
                List.isEmpty_nil, Bool.not_true, Bool.or_false] at hinner hleni
              have hloop : nextScanRLoop p W keep_if (f + 1)
                  (KR.length + JR.length) (KA.length + JA.length)
                  KR.length KA.length (KR ++ (JR ++ (reg :: restR)))
                  (KA ++ (JA ++ (ad :: restA2))) =
                  nextScanRLoop p W keep_if f (KR.length + JR.length + 1)
                    (KA.length + JA.length + ((ad :: restA2).takeWhile
                      fun x => reg.ContainsAddress x).length)
                    KR.length KA.length (KR ++ (JR ++ (reg :: restR)))
                    (KA ++ (JA2i ++ ((ad :: restA2).dropWhile
                      fun x => reg.ContainsAddress x))) := by
                simp only [nextScanRLoop, hguard, and_self, if_true, ite_true,
                  hgetR, hgetA, hCT, Bool.true_eq_false, if_false, ite_false, hRd]
                rw [hinner]
                simp only [Bool.false_eq_true, if_false, ite_false]
              have hre : KR ++ (JR ++ (reg :: restR)) =
                  KR ++ ((JR ++ [reg]) ++ restR) := by simp
              have IH2 := IH ((ad :: restA2).dropWhile
                  fun x => reg.ContainsAddress x) f KR (JR ++ [reg]) KA JA2i
                (KR.length + JR.length + 1)
                (KA.length + JA.length + ((ad :: restA2).takeWhile
                  fun x => reg.ContainsAddress x).length)
                KR.length KA.length hf'
                (by simp only [List.length_append, List.length_cons,
                    List.length_nil]; omega)
                rfl (by omega) rfl
              constructor
              · intro e he
                simp only [nextScanRFun, hCT, Bool.true_eq_false, if_false,
                  ite_false, hRd] at he
                rcases hF : nextScanRFun p W keep_if restR
                    ((ad :: restA2).dropWhile fun x => reg.ContainsAddress x)
                  with ef | ⟨rs2', as2'⟩ <;> rw [hF] at he
                · simp only [Except.error.injEq] at he
                  rw [hloop, hre]
                  exact IH2.1 e (by rw [hF, he])
                · exact absurd he (by simp)
              · intro rs2 as2 h
                simp only [nextScanRFun, hCT, Bool.true_eq_false, if_false,
                  ite_false, hRd] at h
                rcases hF : nextScanRFun p W keep_if restR
                    ((ad :: restA2).dropWhile fun x => reg.ContainsAddress x)
                  with ef | ⟨rs2', as2'⟩ <;> rw [hF] at h
                · exact absurd h (by simp)
                · rw [hKR] at h
                  simp only [List.isEmpty_nil, if_true, ite_true, List.nil_append,
                    Except.ok.injEq, Prod.mk.injEq] at h
                  obtain ⟨h1, h2⟩ := h
                  obtain ⟨JR2, JA2, hJ⟩ := IH2.2 rs2' as2' hF
                  refine ⟨JR2, JA2, ?_⟩
                  rw [hloop, hre, hJ, ← h1, ← h2]
            · -- some contained candidate survives: the region is kept
              have hKRb : (((ad :: restA2).takeWhile
                  fun x => reg.ContainsAddress x).filter
                    (candKeep W keep_if reg nr)).isEmpty = false := by
                cases hE : (((ad :: restA2).takeWhile
                    fun x => reg.ContainsAddress x).filter
                      (candKeep W keep_if reg nr)).isEmpty
                · rfl
                · exact absurd (List.isEmpty_iff.mp hE) hKR
              simp only [hKRb, Bool.not_false, Bool.or_true] at hinner
              have hreA : KA ++ (((ad :: restA2).takeWhile
                  fun x => reg.ContainsAddress x).filter
                    (candKeep W keep_if reg nr) ++
                  (JA2i ++ ((ad :: restA2).dropWhile
                    fun x => reg.ContainsAddress x))) =
                  (KA ++ ((ad :: restA2).takeWhile
                    fun x => reg.ContainsAddress x).filter
                      (candKeep W keep_if reg nr)) ++
                  (JA2i ++ ((ad :: restA2).dropWhile
                    fun x => reg.ContainsAddress x)) := by simp
              cases JR with
              | nil =>
                have hcondR : ¬(KR.length ≠
                    KR.length + ([] : List MemoryRegion).length) := by simp
                have hsetR : (KR ++ (([] : List MemoryRegion) ++ (reg :: restR))).set
                    (KR.length + ([] : List MemoryRegion).length) nr =
                    KR ++ (([] : List MemoryRegion) ++ (nr :: restR)) := by
                  simp [set_append_len KR reg restR nr]
                have hreR : KR ++ (([] : List MemoryRegion) ++ (nr :: restR)) =
                    (KR ++ [nr]) ++ (([] : List MemoryRegion) ++ restR) := by simp
                have hloop : nextScanRLoop p W keep_if (f + 1)
                    (KR.length + ([] : List MemoryRegion).length)
                    (KA.length + JA.length) KR.length KA.length
                    (KR ++ (([] : List MemoryRegion) ++ (reg :: restR)))
                    (KA ++ (JA ++ (ad :: restA2))) =
                    nextScanRLoop p W keep_if f
                      (KR.length + ([] : List MemoryRegion).length + 1)
                      (KA.length + JA.length + ((ad :: restA2).takeWhile
                        fun x => reg.ContainsAddress x).length)
                      (KR.length + 1)
                      (KA.length + (((ad :: restA2).takeWhile
                        fun x => reg.ContainsAddress x).filter
                          (candKeep W keep_if reg nr)).length)
                      ((KR ++ [nr]) ++ (([] : List MemoryRegion) ++ restR))
                      ((KA ++ ((ad :: restA2).takeWhile
                        fun x => reg.ContainsAddress x).filter
                          (candKeep W keep_if reg nr)) ++
                        (JA2i ++ ((ad :: restA2).dropWhile
                          fun x => reg.ContainsAddress x))) := by
                  simp only [nextScanRLoop, hguard, and_self, if_true, ite_true,
                    hgetR, hgetA, hCT, Bool.true_eq_false, if_false, ite_false,
                    hRd]
                  rw [hinner]
                  simp only [eq_self_iff_true, if_true, ite_true, hcondR,
                    if_false, ite_false, hsetR, hreR, hreA]
                have IH2 := IH ((ad :: restA2).dropWhile
                    fun x => reg.ContainsAddress x) f (KR ++ [nr])
                  ([] : List MemoryRegion)
                  (KA ++ ((ad :: restA2).takeWhile
                    fun x => reg.ContainsAddress x).filter
                      (candKeep W keep_if reg nr)) JA2i
                  (KR.length + ([] : List MemoryRegion).length + 1)
                  (KA.length + JA.length + ((ad :: restA2).takeWhile
                    fun x => reg.ContainsAddress x).length)
                  (KR.length + 1)
                  (KA.length + (((ad :: restA2).takeWhile
                    fun x => reg.ContainsAddress x).filter
                      (candKeep W keep_if reg nr)).length) hf'
                  (by simp only [List.length_append, List.length_cons,
                      List.length_nil]; try omega)
                  (by simp only [List.length_append, List.length_cons,
                      List.length_nil]; try omega)
                  (by simp only [List.length_append, List.length_cons,
                      List.length_nil]; omega)
                  (by simp only [List.length_append, List.length_cons,
                      List.length_nil]; try omega)
                constructor
                · intro e he
                  simp only [nextScanRFun, hCT, Bool.true_eq_false, if_false,
                    ite_false, hRd] at he
                  rcases hF : nextScanRFun p W keep_if restR
                      ((ad :: restA2).dropWhile fun x => reg.ContainsAddress x)
                    with ef | ⟨rs2', as2'⟩ <;> rw [hF] at he
                  · simp only [Except.error.injEq] at he
                    rw [hloop]
                    exact IH2.1 e (by rw [hF, he])
                  · exact absurd he (by simp)
                · intro rs2 as2 h
                  simp only [nextScanRFun, hCT, Bool.true_eq_false, if_false,
                    ite_false, hRd] at h
                  rcases hF : nextScanRFun p W keep_if restR
                      ((ad :: restA2).dropWhile fun x => reg.ContainsAddress x)
                    with ef | ⟨rs2', as2'⟩ <;> rw [hF] at h
                  · exact absurd h (by simp)
                  · rw [hKRb] at h
                    simp only [Bool.false_eq_true, if_false, ite_false,
                      Except.ok.injEq, Prod.mk.injEq] at h
                    obtain ⟨h1, h2⟩ := h
                    obtain ⟨JR2, JA2, hJ⟩ := IH2.2 rs2' as2' hF
                    refine ⟨JR2, JA2, ?_⟩
                    rw [hloop, hJ, ← h1, ← h2]
                    simp only [Except.ok.injEq, Prod.mk.injEq]
                    refine ⟨by simp, ?_, by simp, ?_⟩
                    · simp only [List.length_append, List.length_cons,
                        List.length_nil]
                      omega
                    · simp only [List.length_append, List.length_cons,
                        List.length_nil]
                      omega
              | cons j0 JR' =>
                have hneR : KR.length ≠ KR.length + (j0 :: JR').length := by
                  simp
                have hsetR : (KR ++ ((j0 :: JR') ++ (reg :: restR))).set
                    (KR.length + (j0 :: JR').length) nr =
                    KR ++ (j0 :: (JR' ++ nr :: restR)) := by
                  have e1 : KR ++ ((j0 :: JR') ++ (reg :: restR)) =
                      (KR ++ j0 :: JR') ++ reg :: restR := by simp
                  have el1 : KR.length + (j0 :: JR').length =
                      (KR ++ j0 :: JR').length := by
                    simp only [List.length_append, List.length_cons]
                    try omega
                  rw [e1, el1, set_append_len]
                  simp
                have hswR : listSwap (KR ++ (j0 :: (JR' ++ nr :: restR)))
                    KR.length (KR.length + (j0 :: JR').length) =
                    KR ++ (nr :: (JR' ++ j0 :: restR)) :=
                  listSwap_middle KR j0 JR' nr restR
                have hreR : KR ++ (nr :: (JR' ++ j0 :: restR)) =
                    (KR ++ [nr]) ++ ((JR' ++ [j0]) ++ restR) := by simp
                have hloop : nextScanRLoop p W keep_if (f + 1)
                    (KR.length + (j0 :: JR').length)
                    (KA.length + JA.length) KR.length KA.length
                    (KR ++ ((j0 :: JR') ++ (reg :: restR)))
                    (KA ++ (JA ++ (ad :: restA2))) =
                    nextScanRLoop p W keep_if f
                      (KR.length + (j0 :: JR').length + 1)
                      (KA.length + JA.length + ((ad :: restA2).takeWhile
                        fun x => reg.ContainsAddress x).length)
                      (KR.length + 1)
                      (KA.length + (((ad :: restA2).takeWhile
                        fun x => reg.ContainsAddress x).filter
                          (candKeep W keep_if reg nr)).length)
                      ((KR ++ [nr]) ++ ((JR' ++ [j0]) ++ restR))
                      ((KA ++ ((ad :: restA2).takeWhile
                        fun x => reg.ContainsAddress x).filter
                          (candKeep W keep_if reg nr)) ++
                        (JA2i ++ ((ad :: restA2).dropWhile
                          fun x => reg.ContainsAddress x))) := by
                  simp only [nextScanRLoop, hguard, and_self, if_true, ite_true,
                    hgetR, hgetA, hCT, Bool.true_eq_false, if_false, ite_false,
                    hRd]
                  rw [hinner]
                  simp only [eq_self_iff_true, if_true, ite_true]
                  rw [if_pos hneR, hsetR, hswR, hreR, hreA]
                have IH2 := IH ((ad :: restA2).dropWhile
                    fun x => reg.ContainsAddress x) f (KR ++ [nr]) (JR' ++ [j0])
                  (KA ++ ((ad :: restA2).takeWhile
                    fun x => reg.ContainsAddress x).filter
                      (candKeep W keep_if reg nr)) JA2i
                  (KR.length + (j0 :: JR').length + 1)
                  (KA.length + JA.length + ((ad :: restA2).takeWhile
                    fun x => reg.ContainsAddress x).length)
                  (KR.length + 1)
                  (KA.length + (((ad :: restA2).takeWhile
                    fun x => reg.ContainsAddress x).filter
                      (candKeep W keep_if reg nr)).length) hf'
                  (by simp only [List.length_append, List.length_cons,
                      List.length_nil]; omega)
                  (by simp only [List.length_append, List.length_cons,
                      List.length_nil]; try omega)
                  (by simp only [List.length_append, List.length_cons,
                      List.length_nil]; omega)
                  (by simp only [List.length_append, List.length_cons,
                      List.length_nil]; try omega)
                constructor
                · intro e he
                  simp only [nextScanRFun, hCT, Bool.true_eq_false, if_false,
                    ite_false, hRd] at he
                  rcases hF : nextScanRFun p W keep_if restR
                      ((ad :: restA2).dropWhile fun x => reg.ContainsAddress x)
                    with ef | ⟨rs2', as2'⟩ <;> rw [hF] at he
                  · simp only [Except.error.injEq] at he
                    rw [hloop]
                    exact IH2.1 e (by rw [hF, he])
                  · exact absurd he (by simp)
                · intro rs2 as2 h
                  simp only [nextScanRFun, hCT, Bool.true_eq_false, if_false,
                    ite_false, hRd] at h
                  rcases hF : nextScanRFun p W keep_if restR
                      ((ad :: restA2).dropWhile fun x => reg.ContainsAddress x)
                    with ef | ⟨rs2', as2'⟩ <;> rw [hF] at h
                  · exact absurd h (by simp)
                  · rw [hKRb] at h
                    simp only [Bool.false_eq_true, if_false, ite_false,
                      Except.ok.injEq, Prod.mk.injEq] at h
                    obtain ⟨h1, h2⟩ := h
                    obtain ⟨JR2, JA2, hJ⟩ := IH2.2 rs2' as2' hF
                    refine ⟨JR2, JA2, ?_⟩
                    rw [hloop, hJ, ← h1, ← h2]
                    simp only [Except.ok.injEq, Prod.mk.injEq]
                    refine ⟨by simp, ?_, by simp, ?_⟩
                    · simp only [List.length_append, List.length_cons,
                        List.length_nil]
                      omega
                    · simp only [List.length_append, List.length_cons,
                        List.length_nil]
                      omega

/-- The restricted `NextScan` overload computes exactly its structural
recursion. -/
theorem NextScanRestricted_eq_fun (p : Process) (W : Nat) (keep_if : FilterFn)
    (regions : List MemoryRegion) (valid : List Nat) :
    NextScanRestricted p W keep_if regions valid =
    nextScanRFun p W keep_if regions valid := by
  have h := nextScanRLoop_spec p W keep_if regions valid regions.length
    [] [] [] [] 0 0 0 0 (Nat.le_refl _) rfl rfl rfl rfl
  unfold NextScanRestricted
  rcases hF : nextScanRFun p W keep_if regions valid with e | ⟨rs2, as2⟩
  · have he := h.1 e hF
    simp only [List.nil_append] at he
    rw [he]
  · obtain ⟨JR2, JA2, hJ⟩ := h.2 rs2 as2 hF
    simp only [List.nil_append] at hJ
    rw [hJ]
    have t1 : (rs2 ++ JR2).take rs2.length = rs2 := List.take_left rs2 JR2
    have t2 : (as2 ++ JA2).take as2.length = as2 := List.take_left as2 JA2
    simp [t1, t2]

/-- Structural facts about a successful restricted refinement: the surviving
candidate list is a subsequence of the input one, and the surviving session
is a subsequence of the input session with each kept region refreshed. -/
theorem nextScanRFun_sublist (p : Process) (W : Nat) (keep_if : FilterFn) :
    ∀ (regions : List MemoryRegion) (valid : List Nat)
      (rs2 : List MemoryRegion) (as2 : List Nat),
      nextScanRFun p W keep_if regions valid = Except.ok (rs2, as2) →
      rs2.Sublist (regions.map (refreshRegion p)) ∧ as2.Sublist valid := by
  intro regions
  induction regions with
  | nil =>
    intro valid rs2 as2 h
    simp only [nextScanRFun, Except.ok.injEq, Prod.mk.injEq] at h
    obtain ⟨h1, h2⟩ := h
    simp [← h1, ← h2]
  | cons reg rest IH =>
    intro valid rs2 as2 h
    cases valid with
    | nil =>
      simp only [nextScanRFun, Except.ok.injEq, Prod.mk.injEq] at h
      obtain ⟨h1, h2⟩ := h
      simp [← h1, ← h2]
    | cons a as =>
      simp only [nextScanRFun] at h
      by_cases hC : reg.ContainsAddress a = false
      · simp only [hC, eq_self_iff_true, if_true, ite_true] at h
        obtain ⟨hr, ha⟩ := IH (a :: as) rs2 as2 h
        exact ⟨hr.trans ((List.sublist_cons_self _ _).map (refreshRegion p)), ha⟩
      · have hCT : reg.ContainsAddress a = true := by simpa using hC
        simp only [hCT, Bool.true_eq_false, if_false, ite_false] at h
        rcases hRd : ReadRegionData p
            { base_address := reg.base_address, length := reg.length, data := [] }
          with e0 | ⟨nr, k⟩ <;> rw [hRd] at h
        · exact absurd h (by simp)
        · rcases hF : nextScanRFun p W keep_if rest
              ((a :: as).dropWhile fun ad => reg.ContainsAddress ad)
            with ef | ⟨rs2', as2'⟩ <;> rw [hF] at h
          · exact absurd h (by simp)
          · simp only [Except.ok.injEq, Prod.mk.injEq] at h
            obtain ⟨h1, h2⟩ := h
            have hnr := ReadRegionData_ok_eq p reg nr k hRd
            obtain ⟨ihr, iha⟩ := IH _ rs2' as2' hF
            constructor
            · rw [← h1]
              by_cases hKR : (((a :: as).takeWhile fun ad =>
                  reg.ContainsAddress ad).filter
                    (candKeep W keep_if reg nr)).isEmpty = true
              · simp only [hKR, if_true, ite_true]
                exact ihr.trans ((List.sublist_cons_self _ _).map (refreshRegion p))
              · simp only [hKR, Bool.false_eq_true, if_false, ite_false]
                rw [List.map_cons, hnr]
                exact ihr.cons_cons _
            · rw [← h2]
              have hfs : (((a :: as).takeWhile fun ad =>
                  reg.ContainsAddress ad).filter
                    (candKeep W keep_if reg nr)).Sublist
                  ((a :: as).takeWhile fun ad => reg.ContainsAddress ad) :=
                List.filter_sublist _
              have h4 := List.Sublist.append hfs iha
              rwa [List.takeWhile_append_dropWhile] at h4

/-- Every region surviving a restricted refinement is the refreshed copy of
an input region that contains at least one input candidate on which the
filter answered "keep" against old and fresh slot values. -/
theorem nextScanRFun_kept_region (p : Process) (W : Nat) (keep_if : FilterFn) :
    ∀ (regions : List MemoryRegion) (valid : List Nat)
      (rs2 : List MemoryRegion) (as2 : List Nat),
      nextScanRFun p W keep_if regions valid = Except.ok (rs2, as2) →
      ∀ reg2 ∈ rs2, ∃ reg0, reg0 ∈ regions ∧ reg2 = refreshRegion p reg0 ∧
        ∃ ad, ad ∈ valid ∧ reg0.ContainsAddress ad = true ∧
          candKeep W keep_if reg0 (refreshRegion p reg0) ad = true := by
  intro regions
  induction regions with
  | nil =>
    intro valid rs2 as2 h
    simp only [nextScanRFun, Except.ok.injEq, Prod.mk.injEq] at h
    obtain ⟨h1, _⟩ := h
    rw [← h1]
    intro reg2 h2
    exact absurd h2 (by simp)
  | cons reg rest IH =>
    intro valid rs2 as2 h
    cases valid with
    | nil =>
      simp only [nextScanRFun, Except.ok.injEq, Prod.mk.injEq] at h
      obtain ⟨h1, _⟩ := h
      rw [← h1]
      intro reg2 h2
      exact absurd h2 (by simp)
    | cons a as =>
      simp only [nextScanRFun] at h
      by_cases hC : reg.ContainsAddress a = false
      · simp only [hC, eq_self_iff_true, if_true, ite_true] at h
        intro reg2 h2
        obtain ⟨reg0, hm, he, ad, hadm, hc, hk⟩ := IH (a :: as) rs2 as2 h reg2 h2
        exact ⟨reg0, by simp [hm], he, ad, hadm, hc, hk⟩
      · have hCT : reg.ContainsAddress a = true := by simpa using hC
        simp only [hCT, Bool.true_eq_false, if_false, ite_false] at h
        rcases hRd : ReadRegionData p
            { base_address := reg.base_address, length := reg.length, data := [] }
          with e0 | ⟨nr, k⟩ <;> rw [hRd] at h
        · exact absurd h (by simp)
        · rcases hF : nextScanRFun p W keep_if rest
              ((a :: as).dropWhile fun ad => reg.ContainsAddress ad)
            with ef | ⟨rs2', as2'⟩ <;> rw [hF] at h
          · exact absurd h (by simp)
          · simp only [Except.ok.injEq, Prod.mk.injEq] at h
            obtain ⟨h1, _⟩ := h
            have hnr := ReadRegionData_ok_eq p reg nr k hRd
            have hsub : ∀ reg2 ∈ rs2', ∃ reg0, reg0 ∈ reg :: rest ∧
                reg2 = refreshRegion p reg0 ∧
                ∃ ad, ad ∈ a :: as ∧ reg0.ContainsAddress ad = true ∧
                  candKeep W keep_if reg0 (refreshRegion p reg0) ad = true := by
              intro reg2 h2
              obtain ⟨reg0, hm, he, ad, hadm, hc, hk⟩ := IH _ rs2' as2' hF reg2 h2
              refine ⟨reg0, by simp [hm], he, ad, ?_, hc, hk⟩
              exact (List.dropWhile_sublist _).subset hadm
            intro reg2 h2
            rw [← h1] at h2
            by_cases hKR : (((a :: as).takeWhile fun ad =>
                reg.ContainsAddress ad).filter
                  (candKeep W keep_if reg nr)).isEmpty = true
            · rw [if_pos hKR] at h2
              exact hsub reg2 h2
            · rw [if_neg hKR] at h2
              rcases List.mem_cons.mp h2 with h3 | h3
              · -- the freshly kept region itself
                have hne : ((a :: as).takeWhile fun ad =>
                    reg.ContainsAddress ad).filter (candKeep W keep_if reg nr)
                      ≠ [] := by
                  intro hnil
                  rw [hnil] at hKR
                  exact hKR rfl
                obtain ⟨ad, hadm⟩ := List.exists_mem_of_ne_nil _ hne
                have hadf := List.mem_filter.mp hadm
                refine ⟨reg, by simp, by rw [h3, hnr], ad, ?_, ?_, ?_⟩
                · exact (List.takeWhile_sublist _).subset hadf.1
                · exact List.mem_takeWhile_imp hadf.1
                · rw [← hnr]
                  exact hadf.2
              · exact hsub reg2 h3

/-- The `InitialScan` cursor walk preserves the session invariant when the
enumeration is ascending: every kept region starts exactly at the cursor
and is nonempty, so appended regions stay sorted and disjoint. -/
theorem InitialScanLoop_inv (p : Process) (hE : EnumAscending p) :
    ∀ (fuel address : Nat) (acc : List MemoryRegion),
      SessionInvariant acc →
      (∀ r ∈ acc, 0 < r.length ∧ r.base_address + r.length ≤ address) →
      ∀ rs, InitialScanLoop p fuel address acc = Except.ok rs →
        SessionInvariant rs := by
  intro fuel
  induction fuel with
  | zero =>
    intro address acc _ _ rs h
    simp [InitialScanLoop] at h
  | succ f IHf =>
    intro address acc hinv hbound rs h
    rcases hq : p.queryMem address with mi | ec <;>
      simp only [InitialScanLoop, hq] at h
    · obtain ⟨hbase, hpos⟩ := hE address mi hq
      by_cases hs : mi.State ≠ MEM_COMMIT
      · rw [if_pos hs] at h
        exact IHf _ acc hinv
          (fun r hr => ⟨(hbound r hr).1,
            Nat.le_trans (hbound r hr).2 (Nat.le_add_right _ _)⟩) rs h
      · rw [if_neg hs] at h
        by_cases hp : mi.Protect ≠ PAGE_READWRITE ∧
            mi.Protect ≠ PAGE_EXECUTE_READWRITE
        · rw [if_pos hp] at h
          exact IHf _ acc hinv
            (fun r hr => ⟨(hbound r hr).1,
              Nat.le_trans (hbound r hr).2 (Nat.le_add_right _ _)⟩) rs h
        · rw [if_neg hp] at h
          rcases hRd : ReadRegionData p
              { base_address := mi.BaseAddress, length := mi.RegionSize, data := [] }
            with e0 | ⟨region, br⟩ <;> simp only [hRd] at h
          · exact absurd h (by simp)
          · by_cases hbr : br ≠ mi.RegionSize
            · rw [if_pos hbr] at h
              exact absurd h (by simp)
            · rw [if_neg hbr] at h
              have hreg : region = refreshRegion p
                  { base_address := mi.BaseAddress, length := mi.RegionSize,
                    data := [] } :=
                ReadRegionData_ok_eq p
                  { base_address := mi.BaseAddress, length := mi.RegionSize,
                    data := [] } region br hRd
              have hrb : region.base_address = address := by
                rw [hreg, refreshRegion, hbase]
              have hrl : region.length = mi.RegionSize := by
                rw [hreg, refreshRegion]
              refine IHf _ (acc ++ [region]) ?_ ?_ rs h
              · unfold SessionInvariant at *
                rw [List.pairwise_append]
                refine ⟨hinv, by simp, ?_⟩
                intro x hx y hy
                have hb := hbound x hx
                have hy2 : y = region := by simpa using hy
                rw [hy2, hrb]
                exact ⟨by omega, hb.2⟩
              · intro r hr
                rcases List.mem_append.mp hr with h4 | h4
                · have hb := hbound r h4
                  exact ⟨hb.1, Nat.le_trans hb.2 (Nat.le_add_right _ _)⟩
                · have h5 : r = region := by simpa using h4
                  rw [h5, hrb, hrl]
                  exact ⟨hpos, Nat.le_refl _⟩
    · by_cases hec : ec = ERROR_INVALID_PARAMETER
      · rw [if_pos hec] at h
        simp only [Except.ok.injEq] at h
        rw [← h]
        exact hinv
      · rw [if_neg hec] at h
        exact absurd h (by simp)

/-- Every address recorded for a region lies in a slot of that region:
it is at least the base and its whole slot fits inside the byte range. -/
theorem mem_regionMatchAddrs (p : Process) (W : Nat) (keep_if : FilterFn)
    (reg : MemoryRegion) (ad : Nat) (_hW : 0 < W)
    (h : ad ∈ regionMatchAddrs p W keep_if reg) :
    reg.base_address ≤ ad ∧ ad + W ≤ reg.base_address + reg.length := by
  obtain ⟨i, hi, rfl⟩ := List.mem_map.mp h
  have hir : i ∈ List.range (reg.length / W) := (List.mem_filter.mp hi).1
  have hlt := List.mem_range.mp hir
  constructor
  · exact Nat.le_add_right _ _
  · have h3 : (i + 1) * W ≤ (reg.length / W) * W := Nat.mul_le_mul_right _ hlt
    have h4 : (reg.length / W) * W ≤ reg.length := Nat.div_mul_le_self _ _
    have h5 : (i + 1) * W = i * W + W := Nat.succ_mul i W
    omega

/-- The addresses recorded for a single region are strictly ascending. -/
theorem regionMatchAddrs_pairwise (p : Process) (W : Nat) (keep_if : FilterFn)
    (reg : MemoryRegion) (hW : 0 < W) :
    (regionMatchAddrs p W keep_if reg).Pairwise (· < ·) := by
  unfold regionMatchAddrs
  rw [List.pairwise_map]
  have h1 : (regionMatchIdxs p W keep_if reg).Pairwise (· < ·) := by
    unfold regionMatchIdxs
    exact (List.pairwise_lt_range _).sublist (List.filter_sublist _)
  exact h1.imp fun hij => by
    have h2 := (Nat.mul_lt_mul_right hW).mpr hij
    omega

/-- Across a sorted, disjoint session the concatenated per-region match
lists are strictly ascending. -/
theorem matchAddrs_flatten_pairwise (p : Process) (W : Nat)
    (keep_if : FilterFn) (hW : 0 < W) :
    ∀ regions : List MemoryRegion, SessionInvariant regions →
      ((regions.map (regionMatchAddrs p W keep_if)).flatten).Pairwise (· < ·) := by
  intro regions
  induction regions with
  | nil =>
    intro _
    simp
  | cons reg rest IH =>
    intro hinv
    rw [SessionInvariant, List.pairwise_cons] at hinv
    obtain ⟨hhead, htail⟩ := hinv
    simp only [List.map_cons, List.flatten_cons]
    rw [List.pairwise_append]
    refine ⟨regionMatchAddrs_pairwise p W keep_if reg hW, IH htail, ?_⟩
    intro x hx y hy
    obtain ⟨hx1, hx2⟩ := mem_regionMatchAddrs p W keep_if reg x hW hx
    obtain ⟨l, hl, hyl⟩ := List.mem_flatten.mp hy
    obtain ⟨reg2, hreg2, hleq⟩ := List.mem_map.mp hl
    rw [← hleq] at hyl
    obtain ⟨hy1, hy2⟩ := mem_regionMatchAddrs p W keep_if reg2 y hW hyl
    have hrel := hhead reg2 hreg2
    omega

/-- In a session satisfying the invariant, the base address identifies the
region. -/
theorem SessionInvariant_base_inj :
    ∀ regions : List MemoryRegion, SessionInvariant regions →
      ∀ x ∈ regions, ∀ y ∈ regions,
        x.base_address = y.base_address → x = y := by
  intro regions
  induction regions with
  | nil =>
    intro _ x hx
    exact absurd hx (by simp)
  | cons r rest IH =>
    intro h x hx y hy hxy
    rw [SessionInvariant, List.pairwise_cons] at h
    obtain ⟨hr, ht⟩ := h
    rcases List.mem_cons.mp hx with h1 | h1 <;>
      rcases List.mem_cons.mp hy with h2 | h2
    · rw [h1, h2]
    · rw [h1] at hxy
      have := (hr y h2).1
      omega
    · rw [h2] at hxy
      have := (hr x h1).1
      omega
    · exact IH ht x h1 y h2 hxy

/-- The only exception the unrestricted refinement can raise is a hard read
failure; in particular it never raises `ShortRead`. -/
theorem nextScanFun_error_shape (p : Process) (W : Nat) (keep_if : FilterFn) :
    ∀ (regions : List MemoryRegion) (e : ScanError),
      nextScanFun p W keep_if regions = Except.error e →
      ∃ ec ad, e = ScanError.ReadFailure ec ad := by
  intro regions
  induction regions with
  | nil =>
    intro e h
    simp [nextScanFun] at h
  | cons reg rest IH =>
    intro e h
    simp only [nextScanFun] at h
    rcases hRd : ReadRegionData p
        { base_address := reg.base_address, length := reg.length, data := [] }
      with e0 | ⟨nr, k⟩ <;> simp only [hRd] at h
    · have hsh := ReadRegionData_error_eq p reg.base_address reg.length [] e0 hRd
      simp only [Except.error.injEq] at h
      exact ⟨_, _, by rw [← h, hsh]⟩
    · rcases hF : nextScanFun p W keep_if rest with ef | ⟨as2, rs2⟩ <;>
        simp only [hF] at h
      · simp only [Except.error.injEq] at h
        obtain ⟨ec, ad, he⟩ := IH ef hF
        exact ⟨ec, ad, by rw [← h, he]⟩
      · exact absurd h (by simp)

/-- The only exception the restricted refinement can raise is a hard read
failure; in particular it never raises `ShortRead`. -/
theorem nextScanRFun_error_shape (p : Process) (W : Nat) (keep_if : FilterFn) :
    ∀ (regions : List MemoryRegion) (valid : List Nat) (e : ScanError),
      nextScanRFun p W keep_if regions valid = Except.error e →
      ∃ ec ad, e = ScanError.ReadFailure ec ad := by
  intro regions
  induction regions with
  | nil =>
    intro valid e h
    simp [nextScanRFun] at h
  | cons reg rest IH =>
    intro valid e h
    cases valid with
    | nil => simp [nextScanRFun] at h
    | cons a as =>
      simp only [nextScanRFun] at h
      by_cases hC : reg.ContainsAddress a = false
      · simp only [hC, eq_self_iff_true, if_true, ite_true] at h
        exact IH (a :: as) e h
      · have hCT : reg.ContainsAddress a = true := by simpa using hC
        simp only [hCT, Bool.true_eq_false, if_false, ite_false] at h
        rcases hRd : ReadRegionData p
            { base_address := reg.base_address, length := reg.length, data := [] }
          with e0 | ⟨nr, k⟩ <;> simp only [hRd] at h
        · have hsh := ReadRegionData_error_eq p reg.base_address reg.length [] e0 hRd
          simp only [Except.error.injEq] at h
          exact ⟨_, _, by rw [← h, hsh]⟩
        · rcases hF : nextScanRFun p W keep_if rest
              ((a :: as).dropWhile fun ad => reg.ContainsAddress ad)
            with ef | ⟨rs2, as2⟩ <;> simp only [hF] at h
          · simp only [Except.error.injEq] at h
            obtain ⟨ec, ad, he⟩ := IH _ ef hF
            exact ⟨ec, ad, by rw [← h, he]⟩
          · exact absurd h (by simp)

/-! The claims. -/

/-- C1 (counterexample): with a process whose read signals only a tolerated
partial copy and delivers 0 of 16 requested bytes, the unrestricted
refinement does NOT fail with `ShortRead` — it completes successfully,
treating the missing bytes as zeros.  The spec's sentence "a short read is
always fatal to the refinement call in progress" is false on the code: the
`NextScan` overloads ignore the byte count `ReadRegionData` returns. -/
theorem c1_short_read_not_fatal_cex :
    (pShort.readMem 0x1000 16).delivered.length < 16 ∧
    NextScan pShort 4 keepAll [regScenario] =
      Except.ok ([0x1000, 0x1004, 0x1008, 0x100C],
        [{ base_address := 0x1000, length := 16,
           data := List.replicate 16 0 }]) ∧
    NextScan pShort 4 keepAll [regScenario] ≠
      Except.error ScanError.ShortRead := by
  refine ⟨by decide, by rfl, ?_⟩
  intro h
  rw [show NextScan pShort 4 keepAll [regScenario] =
      Except.ok ([0x1000, 0x1004, 0x1008, 0x100C],
        [{ base_address := 0x1000, length := 16,
           data := List.replicate 16 0 }]) from rfl] at h
  exact absurd h (by simp)

/-- C1 (amended): refinement calls never detect short reads.  The only
exception either `NextScan` overload can raise is a hard `ReadFailure`
(`ReadProcessMemory` failing with a code other than `ERROR_PARTIAL_COPY`);
a read that merely under-delivers is silently tolerated and the missing
bytes read as zeros.  (`ShortRead` is raised only by `InitialScan` and
`MemoryObject::ReRead`, which do compare the byte count.) -/
theorem refinement_short_reads_not_detected (p : Process) (W : Nat)
    (keep_if : FilterFn) (regions : List MemoryRegion) (valid : List Nat) :
    (∀ e, NextScan p W keep_if regions = Except.error e →
      ∃ ec ad, e = ScanError.ReadFailure ec ad) ∧
    (∀ e, NextScanRestricted p W keep_if regions valid = Except.error e →
      ∃ ec ad, e = ScanError.ReadFailure ec ad) := by
  constructor
  · intro e he
    rw [NextScan_eq_fun] at he
    exact nextScanFun_error_shape p W keep_if regions e he
  · intro e he
    rw [NextScanRestricted_eq_fun] at he
    exact nextScanRFun_error_shape p W keep_if regions valid e he

/-- C1 (witness): the amended theorem applied to a process whose reads
hard-fail with error code 5. -/
theorem refinement_short_reads_not_detected_w :
    (∃ ec ad, ScanError.ReadFailure 5 0x1000 = ScanError.ReadFailure ec ad) ∧
    (∃ ec ad, ScanError.ReadFailure 5 0x1000 = ScanError.ReadFailure ec ad) :=
  ⟨(refinement_short_reads_not_detected pHardErr 4 keepAll [regScenario]
      [0x1000]).1 (ScanError.ReadFailure 5 0x1000) (by rfl),
   (refinement_short_reads_not_detected pHardErr 4 keepAll [regScenario]
      [0x1000]).2 (ScanError.ReadFailure 5 0x1000) (by rfl)⟩

/-- C2 (counterexample): restricted refinement with an empty candidate set
does NOT leave the session unchanged — it clears it.  With one region in
the session and no candidates, the merge loop never runs, both compaction
frontiers stay 0, and `regions.resize(0)` erases the session. -/
theorem c2_empty_candidates_session_cleared_cex :
    NextScanRestricted pSame 4 keepEq5 [regScenario] [] =
      Except.ok ([], []) ∧
    ([regScenario] : List MemoryRegion) ≠ ([] : List MemoryRegion) := by
  exact ⟨by rfl, by decide⟩

/-- C2 (amended): restricted refinement with an empty candidate set leaves
the candidate set empty and performs no reads — the result is the same for
every process, including one whose reads always fail — but it does not
leave the session unchanged: it clears the session (every region is
dropped, consistently with the unconditional-drop rule, since every region
contains none of the candidates). -/
theorem empty_candidate_restricted_scan (p : Process) (W : Nat)
    (keep_if : FilterFn) (regions : List MemoryRegion) :
    NextScanRestricted p W keep_if regions [] = Except.ok ([], []) := by
  unfold NextScanRestricted
  cases hl : regions.length with
  | zero => simp [nextScanRLoop]
  | succ n =>
    have hng : ¬(0 < regions.length ∧ 0 < ([] : List Nat).length) := by simp
    simp [nextScanRLoop, hng]

/-- C3: the §8 scenario.  Region at `0x1000` holding the 4-byte slots
`[5,7,5,9]`, fresh read returns the same bytes, predicate keeps slots whose
current value is 5: the unrestricted refinement returns exactly
`[0x1000, 0x1008]` and the session keeps the region with the freshly read
bytes. -/
theorem c3_scenario_unrestricted :
    NextScan pSame 4 keepEq5 [regScenario] =
      Except.ok ([0x1000, 0x1008],
        [{ base_address := 0x1000, length := 16, data := bytes5759 }]) := by
  rfl

/-- C4: with an ascending region enumeration, the session produced by
`InitialScan` satisfies the invariant (bases strictly ascending, byte
ranges disjoint), and both `NextScan` overloads preserve it: surviving
regions are refreshed copies of a subsequence of the input session. -/
theorem session_invariant_after_scans (p : Process) (fuel W : Nat)
    (keep_if : FilterFn) :
    (∀ rs, EnumAscending p → InitialScan p fuel = Except.ok rs →
      SessionInvariant rs) ∧
    (∀ regions as rs2, SessionInvariant regions →
      NextScan p W keep_if regions = Except.ok (as, rs2) →
      SessionInvariant rs2) ∧
    (∀ regions valid rs2 as2, SessionInvariant regions →
      NextScanRestricted p W keep_if regions valid = Except.ok (rs2, as2) →
      SessionInvariant rs2) := by
  refine ⟨?_, ?_, ?_⟩
  · intro rs hE h
    exact InitialScanLoop_inv p hE fuel 0 []
      (by simp [SessionInvariant]) (by simp) rs h
  · intro regions as rs2 hinv h
    rw [NextScan_eq_fun] at h
    obtain ⟨_, h2⟩ := nextScanFun_char p W keep_if regions as rs2 h
    rw [h2]
    exact SessionInvariant_refresh_filter p W keep_if regions hinv
  · intro regions valid rs2 as2 hinv h
    rw [NextScanRestricted_eq_fun] at h
    obtain ⟨h1, _⟩ := nextScanRFun_sublist p W keep_if regions valid rs2 as2 h
    have hm : SessionInvariant (regions.map (refreshRegion p)) := by
      unfold SessionInvariant at *
      rw [List.pairwise_map]
      exact hinv.imp fun hab => by simpa [refreshRegion] using hab
    exact hm.sublist h1

/-- C4 (witness): the invariant holds after a concrete capture, after a
concrete unrestricted refinement of a two-region session, and after a
concrete restricted refinement. -/
theorem session_invariant_after_scans_w :
    SessionInvariant
      [{ base_address := 0, length := 16, data := List.replicate 16 0 }] ∧
    SessionInvariant
      [{ base_address := 0x1000, length := 16, data := bytes5759 },
       { base_address := 0x2000, length := 16, data := bytes5759 }] ∧
    SessionInvariant
      [{ base_address := 0x1000, length := 16, data := bytes5759 }] := by
  have hE : EnumAscending pEnum := by
    intro a mi h
    by_cases ha : a = 0
    · rw [ha] at h ⊢
      simp only [pEnum, eq_self_iff_true, if_true, ite_true,
        QueryResult.info.injEq] at h
      rw [← h]
      exact ⟨rfl, by decide⟩
    · simp only [pEnum, if_neg ha] at h
      exact absurd h (by simp)
  refine ⟨?_, ?_, ?_⟩
  · exact (session_invariant_after_scans pEnum 3 4 keepEq5).1
      [{ base_address := 0, length := 16, data := List.replicate 16 0 }]
      hE (by rfl)
  · exact (session_invariant_after_scans pSame 3 4 keepEq5).2.1
      [regScenario, regHigh] [0x1000, 0x1008, 0x2000, 0x2008]
      [{ base_address := 0x1000, length := 16, data := bytes5759 },
       { base_address := 0x2000, length := 16, data := bytes5759 }]
      (by decide) (by rfl)
  · exact (session_invariant_after_scans pSame 3 4 keepEq5).2.2
      [regScenario, regHigh] [0x1000]
      [{ base_address := 0x1000, length := 16, data := bytes5759 }] [0x1000]
      (by decide) (by rfl)

/-- C5: after a restricted refinement of an ascending session with an
ascending candidate set, the surviving candidate set is strictly
ascending, duplicate-free, and a subset of its pre-call value. -/
theorem restricted_candidate_set_invariant (p : Process) (W : Nat)
    (keep_if : FilterFn) (regions : List MemoryRegion) (valid : List Nat)
    (_hinv : SessionInvariant regions) (hv : valid.Pairwise (· < ·)) :
    ∀ rs2 as2, NextScanRestricted p W keep_if regions valid =
        Except.ok (rs2, as2) →
      as2.Pairwise (· < ·) ∧ as2.Nodup ∧ as2 ⊆ valid := by
  intro rs2 as2 h
  rw [NextScanRestricted_eq_fun] at h
  obtain ⟨_, h2⟩ := nextScanRFun_sublist p W keep_if regions valid rs2 as2 h
  refine ⟨hv.sublist h2, ?_, h2.subset⟩
  exact (hv.sublist h2).imp fun hlt => Nat.ne_of_lt hlt

/-- C5 (witness): the candidate-set invariant at the §8 scenario inputs. -/
theorem restricted_candidate_set_invariant_w :
    List.Pairwise (· < ·) [0x1000, 0x1008] ∧
    List.Nodup [0x1000, 0x1008] ∧
    [0x1000, 0x1008] ⊆ [0x1000, 0x1008] :=
  restricted_candidate_set_invariant pSame 4 keepEq5 [regScenario]
    [0x1000, 0x1008] (by decide) (by decide)
    [{ base_address := 0x1000, length := 16, data := bytes5759 }]
    [0x1000, 0x1008] (by rfl)

/-- C6: the unrestricted refinement returns exactly the concatenation, in
region order, of the per-region lists of slot addresses `base + i*W`
(`i < length / W`) at which the filter answered true on (old slot value,
freshly read slot value); under the session invariant and a positive
element width this list is strictly ascending. -/
theorem unrestricted_scan_returns_matches (p : Process) (W : Nat)
    (keep_if : FilterFn) (regions : List MemoryRegion)
    (hW : 0 < W) (hinv : SessionInvariant regions) :
    ∀ as rs2, NextScan p W keep_if regions = Except.ok (as, rs2) →
      as = (regions.map (regionMatchAddrs p W keep_if)).flatten ∧
      as.Pairwise (· < ·) := by
  intro as rs2 h
  rw [NextScan_eq_fun] at h
  obtain ⟨h1, _⟩ := nextScanFun_char p W keep_if regions as rs2 h
  refine ⟨h1, ?_⟩
  rw [h1]
  exact matchAddrs_flatten_pairwise p W keep_if hW regions hinv

/-- C6 (witness): the address characterization at the §8 scenario. -/
theorem unrestricted_scan_returns_matches_w :
    [0x1000, 0x1008] =
      (([regScenario].map (regionMatchAddrs pSame 4 keepEq5))).flatten ∧
    List.Pairwise (· < ·) [0x1000, 0x1008] :=
  unrestricted_scan_returns_matches pSame 4 keepEq5 [regScenario]
    (by decide) (by decide) [0x1000, 0x1008]
    [{ base_address := 0x1000, length := 16, data := bytes5759 }] (by rfl)

/-- C7: after a restricted refinement of an ascending session with a
non-empty candidate set, any input region whose byte range contains none of
the input candidates is absent from the resulting session, regardless of
its contents or the filter. -/
theorem restricted_drops_candidate_free_regions (p : Process) (W : Nat)
    (keep_if : FilterFn) (regions : List MemoryRegion) (valid : List Nat)
    (reg : MemoryRegion) (hinv : SessionInvariant regions)
    (_hvne : valid ≠ []) (hmem : reg ∈ regions)
    (hnone : ∀ ad ∈ valid, reg.ContainsAddress ad = false) :
    ∀ rs2 as2, NextScanRestricted p W keep_if regions valid =
        Except.ok (rs2, as2) →
      ∀ reg2 ∈ rs2, reg2.base_address ≠ reg.base_address := by
  intro rs2 as2 h reg2 h2 heq
  rw [NextScanRestricted_eq_fun] at h
  obtain ⟨reg0, hm0, he0, ad, hadm, hc, _⟩ :=
    nextScanRFun_kept_region p W keep_if regions valid rs2 as2 h reg2 h2
  have hb : reg0.base_address = reg.base_address := by
    rw [← heq, he0]
    rfl
  have h3 := SessionInvariant_base_inj regions hinv reg0 hm0 reg hmem hb
  rw [h3, hnone ad hadm] at hc
  exact absurd hc (by simp)

/-- C7 (witness): the region at `0x2000` contains no candidate from
`[0x1000]` and is indeed gone after the restricted refinement. -/
theorem restricted_drops_candidate_free_regions_w :
    ({ base_address := 0x1000, length := 16, data := bytes5759 } :
      MemoryRegion).base_address ≠ (0x2000 : Nat) :=
  restricted_drops_candidate_free_regions pSame 4 keepEq5
    [regScenario, regHigh] [0x1000] regHigh (by decide) (by decide)
    (by decide) (by decide)
    [{ base_address := 0x1000, length := 16, data := bytes5759 }] [0x1000]
    (by rfl) { base_address := 0x1000, length := 16, data := bytes5759 }
    (by decide)

/-- C8: a region in which every evaluated slot fails the predicate is
absent after the refinement — in the unrestricted form every slot of the
region is evaluated, in the restricted form only its candidate slots. -/
theorem zero_match_regions_dropped (p : Process) (W : Nat)
    (keep_if : FilterFn) (regions : List MemoryRegion) (valid : List Nat)
    (reg : MemoryRegion) (hinv : SessionInvariant regions)
    (hmem : reg ∈ regions) :
    ((∀ i < reg.length / W,
        keep_if (slotBytes reg.data W i)
          (slotBytes (freshBuf p reg.base_address reg.length) W i) = false) →
      ∀ as rs2, NextScan p W keep_if regions = Except.ok (as, rs2) →
      ∀ reg2 ∈ rs2, reg2.base_address ≠ reg.base_address) ∧
    ((∀ ad ∈ valid, reg.ContainsAddress ad = true →
        candKeep W keep_if reg (refreshRegion p reg) ad = false) →
      ∀ rs2 as2, NextScanRestricted p W keep_if regions valid =
          Except.ok (rs2, as2) →
      ∀ reg2 ∈ rs2, reg2.base_address ≠ reg.base_address) := by
  constructor
  · intro hall as rs2 h reg2 h2 heq
    rw [NextScan_eq_fun] at h
    obtain ⟨_, hr⟩ := nextScanFun_char p W keep_if regions as rs2 h
    rw [hr] at h2
    obtain ⟨reg0, hm0, he0⟩ := List.mem_map.mp h2
    have hf0 := List.mem_filter.mp hm0
    have hb : reg0.base_address = reg.base_address := by
      rw [← heq, ← he0]
      rfl
    have h3 := SessionInvariant_base_inj regions hinv reg0 hf0.1 reg hmem hb
    rw [h3] at hf0
    have hk := hf0.2
    unfold regionKeptB at hk
    have hne : regionMatchIdxs p W keep_if reg ≠ [] := by
      intro hnil
      rw [hnil] at hk
      exact absurd hk (by simp)
    obtain ⟨i, hi⟩ := List.exists_mem_of_ne_nil _ hne
    have hif := List.mem_filter.mp hi
    have hilt := List.mem_range.mp hif.1
    rw [hall i hilt] at hif
    exact absurd hif.2 (by simp)
  · intro hall rs2 as2 h reg2 h2 heq
    rw [NextScanRestricted_eq_fun] at h
    obtain ⟨reg0, hm0, he0, ad, hadm, hc, hk⟩ :=
      nextScanRFun_kept_region p W keep_if regions valid rs2 as2 h reg2 h2
    have hb : reg0.base_address = reg.base_address := by
      rw [← heq, he0]
      rfl
    have h3 := SessionInvariant_base_inj regions hinv reg0 hm0 reg hmem hb
    rw [h3] at hc hk
    rw [hall ad hadm hc] at hk
    exact absurd hk (by simp)

/-- C8 (witness): against a process whose memory now reads `[7,7,7,7]`, the
"equals 5" filter fails at every slot of the scenario region, and the
region is gone after both refinement forms. -/
theorem zero_match_regions_dropped_w :
    (∀ reg2 ∈ ([] : List MemoryRegion),
      reg2.base_address ≠ regScenario.base_address) ∧
    (∀ reg2 ∈ ([] : List MemoryRegion),
      reg2.base_address ≠ regScenario.base_address) :=
  ⟨(zero_match_regions_dropped pSeven 4 keepEq5 [regScenario] [0x1000]
      regScenario (by decide) (by decide)).1 (by decide) [] [] (by rfl),
   (zero_match_regions_dropped pSeven 4 keepEq5 [regScenario] [0x1000]
      regScenario (by decide) (by decide)).2 (by decide) [] [] (by rfl)⟩

/-- C9: compaction is stable.  A successful unrestricted refinement leaves
the session equal to the filter of the pre-call sequence by the per-region
keep decision, each survivor refreshed, in unchanged relative order; a
successful restricted refinement leaves the session a subsequence of the
refreshed pre-call sequence and the candidate set a subsequence of its
pre-call value — kept items appear in exactly their pre-call relative
order. -/
theorem compaction_is_stable (p : Process) (W : Nat) (keep_if : FilterFn)
    (regions : List MemoryRegion) (valid : List Nat) :
    (∀ as rs2, NextScan p W keep_if regions = Except.ok (as, rs2) →
      rs2 = (regions.filter (regionKeptB p W keep_if)).map (refreshRegion p)) ∧
    (∀ rs2 as2, NextScanRestricted p W keep_if regions valid =
        Except.ok (rs2, as2) →
      rs2.Sublist (regions.map (refreshRegion p)) ∧ as2.Sublist valid) := by
  constructor
  · intro as rs2 h
    rw [NextScan_eq_fun] at h
    exact (nextScanFun_char p W keep_if regions as rs2 h).2
  · intro rs2 as2 h
    rw [NextScanRestricted_eq_fun] at h
    exact nextScanRFun_sublist p W keep_if regions valid rs2 as2 h

/-- C9 (witness): stability at the §8 scenario inputs. -/
theorem compaction_is_stable_w :
    ([{ base_address := 0x1000, length := 16, data := bytes5759 },
      { base_address := 0x2000, length := 16, data := bytes5759 }] :
        List MemoryRegion) =
      ([regScenario, regHigh].filter (regionKeptB pSame 4 keepEq5)).map
        (refreshRegion pSame) ∧
    (([{ base_address := 0x1000, length := 16, data := bytes5759 }] :
        List MemoryRegion).Sublist
      ([regScenario, regHigh].map (refreshRegion pSame)) ∧
      ([0x1000] : List Nat).Sublist [0x1000]) := by
  constructor
  · exact (compaction_is_stable pSame 4 keepEq5 [regScenario, regHigh]
      [0x1000]).1 [0x1000, 0x1008, 0x2000, 0x2008]
      [{ base_address := 0x1000, length := 16, data := bytes5759 },
       { base_address := 0x2000, length := 16, data := bytes5759 }] (by rfl)
  · exact (compaction_is_stable pSame 4 keepEq5 [regScenario, regHigh]
      [0x1000]).2
      [{ base_address := 0x1000, length := 16, data := bytes5759 }] [0x1000]
      (by rfl)

/-- C10: `MemoryObject::ReRead` fails with `ReadFailure` when the read
primitive reports a hard error other than a partial copy; fails with
`ShortRead` whenever fewer than `W` bytes are obtained, including under a
tolerated partial-copy signal; and succeeds — overwriting the held value
with the `W` freshly read bytes at the unchanged address — exactly when `W`
bytes were obtained without a hard error. -/
theorem reread_error_spec (p : Process) (W : Nat) (m : MemoryObject) :
    ((p.readMem m.address W).ok = false →
      (p.readMem m.address W).ec ≠ ERROR_PARTIAL_COPY →
      MemoryObject.ReRead p W m =
        Except.error (ScanError.ReadFailure (p.readMem m.address W).ec
          m.address)) ∧
    (((p.readMem m.address W).ok = true ∨
        (p.readMem m.address W).ec = ERROR_PARTIAL_COPY) →
      ((p.readMem m.address W).delivered.take W).length < W →
      MemoryObject.ReRead p W m = Except.error ScanError.ShortRead) ∧
    (MemoryObject.ReRead p W m = Except.ok
        { address := m.address,
          value := (p.readMem m.address W).delivered.take W ++
            m.value.drop ((p.readMem m.address W).delivered.take W).length } ↔
      (((p.readMem m.address W).ok = true ∨
          (p.readMem m.address W).ec = ERROR_PARTIAL_COPY) ∧
        ((p.readMem m.address W).delivered.take W).length = W)) := by
  have hkey : ¬((p.readMem m.address W).ok = false ∧
      (p.readMem m.address W).ec ≠ ERROR_PARTIAL_COPY) ↔
      ((p.readMem m.address W).ok = true ∨
        (p.readMem m.address W).ec = ERROR_PARTIAL_COPY) := by
    constructor
    · intro h
      by_cases ho : (p.readMem m.address W).ok = true
      · exact Or.inl ho
      · right
        have hof : (p.readMem m.address W).ok = false := by
          cases hok : (p.readMem m.address W).ok
          · rfl
          · exact absurd hok ho
        by_contra hec
        exact h ⟨hof, hec⟩
    · rintro (h | h) ⟨h1, h2⟩
      · rw [h] at h1
        exact absurd h1 (by simp)
      · exact h2 h
  refine ⟨?_, ?_, ?_⟩
  · intro h1 h2
    simp only [MemoryObject.ReRead]
    rw [if_pos ⟨h1, h2⟩]
  · intro hno hlen
    simp only [MemoryObject.ReRead]
    rw [if_neg (hkey.mpr hno), if_pos (Nat.ne_of_lt hlen)]
  · constructor
    · intro h
      simp only [MemoryObject.ReRead] at h
      by_cases hc1 : (p.readMem m.address W).ok = false ∧
          (p.readMem m.address W).ec ≠ ERROR_PARTIAL_COPY
      · rw [if_pos hc1] at h
        exact absurd h (by simp)
      · rw [if_neg hc1] at h
        by_cases hc2 : ((p.readMem m.address W).delivered.take W).length ≠ W
        · rw [if_pos hc2] at h
          exact absurd h (by simp)
        · exact ⟨hkey.mp hc1, by omega⟩
    · rintro ⟨hno, hlen⟩
      simp only [MemoryObject.ReRead]
      rw [if_neg (hkey.mpr hno), if_neg (by omega)]

/-- C10 (witness): the three behaviours at concrete processes — a hard
failure with code 5, a partial copy delivering nothing, and a full
4-byte read of the value 5. -/
theorem reread_error_spec_w :
    MemoryObject.ReRead pHardErr 4 mObj =
      Except.error (ScanError.ReadFailure 5 0x1000) ∧
    MemoryObject.ReRead pShort 4 mObj = Except.error ScanError.ShortRead ∧
    MemoryObject.ReRead pSame 4 mObj =
      Except.ok { address := 0x1000, value := [5, 0, 0, 0] } := by
  refine ⟨?_, ?_, ?_⟩
  · exact (reread_error_spec pHardErr 4 mObj).1 (by rfl) (by decide)
  · exact (reread_error_spec pShort 4 mObj).2.1 (Or.inr (by rfl)) (by decide)
  · exact (reread_error_spec pSame 4 mObj).2.2.mpr ⟨Or.inl (by rfl), by decide⟩

end MemoryScanner
